import Mathlib

/-!
# Verification of the `breadcrumbs` backtracking search engine

Shallow embedding of `src/backtracker/search.py`.  States are modelled as
natural numbers; a state graph is a pair of functions `next : Nat → List Nat`
(the `Backtrackable.next()` expansion) and `isSol : Nat → Bool`
(`Backtrackable.is_solution()`).  Python sets and the `footprints` dict
(whose stored values are always `True`, so it is used as a set of keys)
become `Finset Nat`.  Loops that the Python code runs unboundedly are given
a fuel parameter; a run that returns `none` exhausted its fuel, a run that
returns `some st` terminated exactly as the Python loop does.

Both searchers additionally record two call traces that are write-only in
the model: `expTrace`, the states on which `.next()` was invoked, in call
order, and `solTrace`, the states on which `.is_solution()` was invoked.
These make the footprint/expansion claims of the specification statable.
-/

set_option maxRecDepth 4000

/-- `Node = namedtuple("Node", ['depth', 'state'])`. -/
structure Node (σ : Type) where
  depth : Nat
  state : σ
deriving DecidableEq

/-- The mutable state of one `iterative_search` call.

The Python backlog list is stored tail-first: `backlog.pop()` (which pops
the Python tail) removes the head of this list, `backlog.append` conses onto
it, and `backlog.insert(0, ·)` appends at its end. -/
structure IterSt where
  backlog : List (Node Nat)
  footprints : Finset Nat
  solutions : Finset Nat
  expTrace : List Nat
  solTrace : List Nat
deriving DecidableEq

/-- The depth test guarding expansion in `iterative_search`:
`if max_depth: too_deep = current.depth >= max_depth`.
`max_depth` is the Python argument (default `None`); a supplied `0` is falsy,
so the comparison is only made for a non-zero configured depth. -/
def tooDeep : Option Nat → Nat → Bool
  | none, _ => false
  | some d, depth => if d = 0 then false else decide (d ≤ depth)

/-- The early-termination test of `iterative_search`:
`if n_sols: early_term = len(solutions) >= n_sols`, again by truthiness. -/
def earlyTerm : Option Nat → Nat → Bool
  | none, _ => false
  | some k, card => if k = 0 then false else decide (k ≤ card)

/-- The body of `for next in current.state.next():` in `iterative_search`.
`Sum.inl` is the early `return solutions` path (the whole call returns);
`Sum.inr` falls through to the rest of the while-loop iteration.
`is_solution` is evaluated on every successor (it is the first conjunct of
the `if`), hence the unconditional `solTrace` extension. -/
def procSuccs (isSol : Nat → Bool) (dfs : Bool) (nSols : Option Nat)
    (depth : Nat) : List Nat → IterSt → Sum IterSt IterSt
  | [], st => Sum.inr st
  | t :: rest, st =>
    let st1 : IterSt := { st with solTrace := st.solTrace ++ [t] }
    if isSol t = true ∧ t ∉ st1.solutions then
      let st2 : IterSt := { st1 with solutions := insert t st1.solutions }
      if earlyTerm nSols st2.solutions.card then Sum.inl st2
      else procSuccs isSol dfs nSols depth rest st2
    else if t ∉ st1.footprints then
      let nd : Node Nat := ⟨depth + 1, t⟩
      let st2 : IterSt :=
        { st1 with backlog := if dfs then nd :: st1.backlog else st1.backlog ++ [nd] }
      procSuccs isSol dfs nSols depth rest st2
    else
      procSuccs isSol dfs nSols depth rest st1

/-- One iteration of the `while len(backlog) > 0` loop of `iterative_search`,
after the current node has been popped (`st` already lacks it).  The popped
state is footprinted only after its successors were processed, and only on
the `not too_deep` path, exactly as in the source. -/
def iterBody (next : Nat → List Nat) (isSol : Nat → Bool) (dfs : Bool)
    (maxDepth nSols : Option Nat) (cur : Node Nat) (st : IterSt) : Sum IterSt IterSt :=
  if tooDeep maxDepth cur.depth then Sum.inr st
  else
    let st1 : IterSt := { st with expTrace := st.expTrace ++ [cur.state] }
    match procSuccs isSol dfs nSols cur.depth (next cur.state) st1 with
    | Sum.inl stE => Sum.inl stE
    | Sum.inr st2 => Sum.inr { st2 with footprints := insert cur.state st2.footprints }

/-- The `while len(backlog) > 0` loop of `iterative_search`, with fuel. -/
def iterLoop (next : Nat → List Nat) (isSol : Nat → Bool) (dfs : Bool)
    (maxDepth nSols : Option Nat) : Nat → IterSt → Option IterSt
  | 0, _ => none
  | fuel + 1, st =>
    match st.backlog with
    | [] => some st
    | cur :: rest =>
      match iterBody next isSol dfs maxDepth nSols cur { st with backlog := rest } with
      | Sum.inl stE => some stE
      | Sum.inr st2 => iterLoop next isSol dfs maxDepth nSols fuel st2

/-- `iterative_search(states, dfs, max_depth, n_sols)` on a list of (valid)
initial states.  The seeding loop appends `Node(0, s)` per state in order,
so in the tail-first representation the backlog starts as the reversed
input list. -/
def iterative_search (next : Nat → List Nat) (isSol : Nat → Bool)
    (states : List Nat) (dfs : Bool) (maxDepth nSols : Option Nat)
    (fuel : Nat) : Option IterSt :=
  iterLoop next isSol dfs maxDepth nSols fuel
    ⟨(states.map (Node.mk 0)).reverse, ∅, ∅, [], []⟩

/-- The mutable coordinator state of one `parallelized_search` call.  The
backlog is the FIFO `mp.Queue`: head = front. -/
structure ParSt where
  backlog : List (Node Nat)
  footprints : Finset Nat
  solutions : Finset Nat
  expTrace : List Nat
  solTrace : List Nat
deriving DecidableEq

/-- The result-harvest loop `while not results.empty():` of the coordinator
in `parallelized_search`, classifying each received node in queue order.
`is_solution` is only invoked on nodes that pass the footprint check
(`elif result.state.is_solution()`). -/
def classifyAll (isSol : Nat → Bool) : List (Node Nat) → ParSt → ParSt
  | [], st => st
  | r :: rest, st =>
    if r.state ∈ st.footprints then classifyAll isSol rest st
    else
      let st1 : ParSt := { st with solTrace := st.solTrace ++ [r.state] }
      if isSol r.state then
        classifyAll isSol rest { st1 with solutions := insert r.state st1.solutions }
      else
        classifyAll isSol rest
          { st1 with backlog := st1.backlog ++ [r],
                     footprints := insert r.state st1.footprints }

/-- The coordinator loop of `parallelized_search`, with fuel.  The spawning
of one worker (done whenever the backlog queue is non-empty, with no look at
the configured worker maximum), its single dequeue, its expansion of the
dequeued state, and the harvest of the successors it put on the results
queue are serialized into one atomic step: the source guarantees each
backlog item is dequeued by exactly one worker and all classification is
centralized in the coordinator, so this is the schedule in which each spawn
completes and is fully harvested before the next; only the ordering of
classification events, never the classification logic, is fixed by it.
Termination (`qsize == 0 and wsize == 0`) becomes: no pending backlog item
and no in-flight worker, i.e. an empty backlog at the top of the step. -/
def parLoop (next : Nat → List Nat) (isSol : Nat → Bool) : Nat → ParSt → Option ParSt
  | 0, _ => none
  | fuel + 1, st =>
    match st.backlog with
    | [] => some st
    | cur :: rest =>
      let st1 : ParSt := { st with backlog := rest, expTrace := st.expTrace ++ [cur.state] }
      parLoop next isSol fuel
        (classifyAll isSol ((next cur.state).map (Node.mk (cur.depth + 1))) st1)

/-- `parallelized_search(states, max_worker_count)` on a list of (valid)
initial states.  Seeding puts `Node(0, s)` per state on the backlog queue
and footprints every initial state.  The `max_worker_count` argument is
accepted and, exactly as in the source, never read. -/
def parallelized_search (next : Nat → List Nat) (isSol : Nat → Bool)
    (states : List Nat) (maxWorkerCount : Nat) (fuel : Nat) : Option ParSt :=
  parLoop next isSol fuel ⟨states.map (Node.mk 0), states.toFinset, ∅, [], []⟩

/-- `recursive_search(state)`, with fuel (the source recursion is bounded
only by the call stack).  The inner `for`/`for`/`add` double loop adds every
element of each child result to the accumulating set, i.e. unions it in. -/
def recursive_search (next : Nat → List Nat) (isSol : Nat → Bool) :
    Nat → Nat → Finset Nat
  | 0, _ => ∅
  | fuel + 1, s =>
    if isSol s then {s}
    else (next s).foldl (fun acc t => acc ∪ recursive_search next isSol fuel t) ∅

/-- Reference definition written from the specification's words (§4.2):
"if the state is a solution, return a singleton set containing it; otherwise
union the recursive results of searching every expanded successor". -/
def recursive_search_spec (next : Nat → List Nat) (isSol : Nat → Bool) :
    Nat → Nat → Finset Nat
  | 0, _ => ∅
  | fuel + 1, s =>
    if isSol s then {s}
    else (next s).toFinset.biUnion (fun t => recursive_search_spec next isSol fuel t)

/-- Running `recursive_search` on each of several initial states and taking
the union of the results (the source function takes a single state; the
specification's three-strategy comparison runs it per initial state). -/
def recursive_search_all (next : Nat → List Nat) (isSol : Nat → Bool)
    (states : List Nat) (fuel : Nat) : Finset Nat :=
  states.foldl (fun acc s => acc ∪ recursive_search next isSol fuel s) ∅

/-- Outcome of one worker process of `parallelized_search`:
the nodes it put on the results queue, the shared counters as it left them,
and whether it died from an exception raised by the expansion. -/
structure WorkerResult where
  results : List (Node Nat)
  qsize : Int
  wsize : Int
  crashed : Bool
deriving DecidableEq

/-- The nested `worker` function of `parallelized_search`, over a fallible
expansion (`Except.error` models `current.state.next()` raising).  Returns
the backlog as the worker left it, paired with the worker's outcome.

* Empty backlog: the dequeue times out, the bare `except: pass` swallows the
  error inside the lock, `current` stays `None`, expansion is skipped, and
  the final block still decrements `wsize`.
* Dequeue succeeds: `qsize` is decremented inside the `try`.  The expansion
  loop sits *outside* any `try`/`finally`, so an exception there propagates
  and kills the process before the `wsize` decrement is reached; only on
  the non-raising path is `wsize` decremented. -/
def worker (next : Nat → Except Unit (List Nat)) (backlog : List (Node Nat))
    (qsize wsize : Int) : List (Node Nat) × WorkerResult :=
  match backlog with
  | [] => ([], ⟨[], qsize, wsize - 1, false⟩)
  | cur :: rest =>
    match next cur.state with
    | Except.error _ => (rest, ⟨[], qsize - 1, wsize, true⟩)
    | Except.ok succs =>
      (rest, ⟨succs.map (Node.mk (cur.depth + 1)), qsize - 1, wsize - 1, false⟩)

/-- The seeding loop of `iterative_search` over raw inputs, where `none`
models a supplied value that is not a `Backtrackable`:
`assert isinstance(s, Backtrackable)` aborts the call at the first invalid
value, before the search loop ever runs. -/
def seedChecked : List (Option Nat) → Except Unit (List Nat)
  | [] => Except.ok []
  | none :: _ => Except.error ()
  | some s :: rest => (seedChecked rest).map (fun l => s :: l)

/-- `iterative_search` on raw inputs: validate while seeding, then run the
search loop on the validated states. -/
def iterative_search_checked (next : Nat → List Nat) (isSol : Nat → Bool)
    (states : List (Option Nat)) (dfs : Bool) (maxDepth nSols : Option Nat)
    (fuel : Nat) : Except Unit (Option IterSt) :=
  (seedChecked states).map
    (fun ss => iterative_search next isSol ss dfs maxDepth nSols fuel)

/-- Coordinator state of `parallelized_search` over raw inputs (`none` =
a supplied value that is not a `Backtrackable`; the source performs no
validation, so such a value is seeded like any other).  Footprint keys are
the raw values; only valid states can become solutions or be expanded
successfully. -/
structure ParRawSt where
  backlog : List (Node (Option Nat))
  footprints : Finset (Option Nat)
  solutions : Finset Nat
  expAttempts : List (Option Nat)
deriving DecidableEq

/-- Observable outcome of `parallelized_search` on raw inputs.  `hung`: a
worker dequeued a node and called `.next()` on an invalid value; the
`AttributeError` kills the worker before it decrements `wsize` (see
`worker`), so `while qsize.value > 0 or wsize.value > 0` can never exit and
the caller never gets a return value or an error. -/
inductive ParRawRes where
  | finished (solutions : Finset Nat) (expAttempts : List (Option Nat))
  | hung (expAttempts : List (Option Nat))
deriving DecidableEq

/-- Result harvesting for the raw-input coordinator.  Successors produced by
a valid state are valid, so they carry `Nat` states; the footprint lookup
is against the raw-valued footprint dict. -/
def classifyRaw (isSol : Nat → Bool) : List (Node Nat) → ParRawSt → ParRawSt
  | [], st => st
  | r :: rest, st =>
    if (some r.state : Option Nat) ∈ st.footprints then classifyRaw isSol rest st
    else if isSol r.state then
      classifyRaw isSol rest { st with solutions := insert r.state st.solutions }
    else
      classifyRaw isSol rest
        { st with backlog := st.backlog ++ [⟨r.depth, some r.state⟩],
                  footprints := insert (some r.state : Option Nat) st.footprints }

/-- The coordinator loop of `parallelized_search` over raw inputs, with the
same serialized-worker schedule as `parLoop`.  Expanding an invalid value
crashes the worker and hangs the coordinator. -/
def parRawLoop (next : Nat → List Nat) (isSol : Nat → Bool) :
    Nat → ParRawSt → Option ParRawRes
  | 0, _ => none
  | fuel + 1, st =>
    match st.backlog with
    | [] => some (ParRawRes.finished st.solutions st.expAttempts)
    | cur :: rest =>
      let st1 : ParRawSt :=
        { st with backlog := rest, expAttempts := st.expAttempts ++ [cur.state] }
      match cur.state with
      | none => some (ParRawRes.hung st1.expAttempts)
      | some v =>
        parRawLoop next isSol fuel
          (classifyRaw isSol ((next v).map (fun u => ⟨cur.depth + 1, u⟩)) st1)

/-- `parallelized_search` on raw inputs: no validation happens; every
supplied value, valid or not, is seeded and footprinted. -/
def parallelized_search_raw (next : Nat → List Nat) (isSol : Nat → Bool)
    (states : List (Option Nat)) (maxWorkerCount : Nat) (fuel : Nat) :
    Option ParRawRes :=
  parRawLoop next isSol fuel ⟨states.map (Node.mk 0), states.toFinset, ∅, []⟩

/-- `ReachK next k s t`: `t` is reachable from `s` by exactly `k` expansion
steps. -/
inductive ReachK (next : Nat → List Nat) : Nat → Nat → Nat → Prop
  | refl (s : Nat) : ReachK next 0 s s
  | step {s t u : Nat} {k : Nat} (ht : t ∈ next s) (h : ReachK next k t u) :
      ReachK next (k + 1) s u

lemma ReachK.snoc {next : Nat → List Nat} {k s t u : Nat}
    (h : ReachK next k s t) (hu : u ∈ next t) : ReachK next (k + 1) s u := by
  induction h with
  | refl s => exact ReachK.step hu (ReachK.refl u)
  | step ht _ ih => exact ReachK.step ht (ih hu)

lemma mem_foldl_union (f : Nat → Finset Nat) (l : List Nat) (acc : Finset Nat) (x : Nat) :
    x ∈ l.foldl (fun a t => a ∪ f t) acc ↔ x ∈ acc ∨ ∃ t ∈ l, x ∈ f t := by
  induction l generalizing acc with
  | nil => simp
  | cons t ts ih =>
    simp only [List.foldl_cons, ih, Finset.mem_union, List.mem_cons]
    constructor
    · rintro (⟨h | h⟩ | ⟨u, hu, hx⟩)
      · exact Or.inl h
      · exact Or.inr ⟨t, Or.inl rfl, h⟩
      · exact Or.inr ⟨u, Or.inr hu, hx⟩
    · rintro (h | ⟨u, (rfl | hu), hx⟩)
      · exact Or.inl (Or.inl h)
      · exact Or.inl (Or.inr hx)
      · exact Or.inr ⟨u, hu, hx⟩

lemma foldl_union_eq_biUnion (f : Nat → Finset Nat) (l : List Nat) (acc : Finset Nat) :
    l.foldl (fun a t => a ∪ f t) acc = acc ∪ l.toFinset.biUnion f := by
  ext x
  simp [mem_foldl_union]

/-- C8: for every state and every fuel, `recursive_search` equals the
reference definition written from the spec: if the state is a solution it
returns the singleton set containing it, otherwise it returns the union of
the recursive results over every successor produced by the expansion. -/
theorem c8_recursive_matches_spec (next : Nat → List Nat) (isSol : Nat → Bool)
    (fuel s : Nat) :
    recursive_search next isSol fuel s = recursive_search_spec next isSol fuel s := by
  induction fuel generalizing s with
  | zero => rfl
  | succ fuel ih =>
    simp only [recursive_search, recursive_search_spec]
    split
    · rfl
    · rw [foldl_union_eq_biUnion]
      rw [Finset.empty_union]
      exact Finset.biUnion_congr rfl (fun t _ => ih t)

/-- C7: `parallelized_search` never consults its `max_worker_count`
argument; its result is identical for any two values of it. -/
theorem c7_max_worker_count_ignored (next : Nat → List Nat) (isSol : Nat → Bool)
    (states : List Nat) (m₁ m₂ fuel : Nat) :
    parallelized_search next isSol states m₁ fuel =
      parallelized_search next isSol states m₂ fuel := rfl

lemma tooDeep_zero_eq_none (depth : Nat) : tooDeep (some 0) depth = tooDeep none depth := rfl

lemma earlyTerm_zero_eq_none (card : Nat) : earlyTerm (some 0) card = earlyTerm none card := rfl

lemma procSuccs_nSols_zero (isSol : Nat → Bool) (dfs : Bool) (depth : Nat) :
    ∀ (l : List Nat) (st : IterSt),
      procSuccs isSol dfs (some 0) depth l st = procSuccs isSol dfs none depth l st := by
  intro l
  induction l with
  | nil => intro st; rfl
  | cons t rest ih =>
    intro st
    simp only [procSuccs, earlyTerm_zero_eq_none]
    split
    · simp only [earlyTerm, Bool.false_eq_true, if_false, ih]
    · split <;> exact ih _

lemma iterLoop_nSols_zero (next : Nat → List Nat) (isSol : Nat → Bool) (dfs : Bool)
    (maxDepth : Option Nat) :
    ∀ (fuel : Nat) (st : IterSt),
      iterLoop next isSol dfs maxDepth (some 0) fuel st =
        iterLoop next isSol dfs maxDepth none fuel st := by
  intro fuel
  induction fuel with
  | zero => intro st; rfl
  | succ fuel ih =>
    intro st
    rcases hb : st.backlog with _ | ⟨cur, rest⟩ <;>
      simp only [iterLoop, iterBody, hb, procSuccs_nSols_zero]
    split
    · rfl
    · exact ih _

lemma iterLoop_maxDepth_zero (next : Nat → List Nat) (isSol : Nat → Bool) (dfs : Bool)
    (nSols : Option Nat) :
    ∀ (fuel : Nat) (st : IterSt),
      iterLoop next isSol dfs (some 0) nSols fuel st =
        iterLoop next isSol dfs none nSols fuel st := by
  intro fuel
  induction fuel with
  | zero => intro st; rfl
  | succ fuel ih =>
    intro st
    rcases hb : st.backlog with _ | ⟨cur, rest⟩ <;>
      simp only [iterLoop, iterBody, hb, tooDeep_zero_eq_none]
    simp only [tooDeep, Bool.false_eq_true, if_false]
    split
    · rfl
    · exact ih _

/-- C10: supplying `0` for `max_depth` or for `n_sols` behaves exactly as
supplying no limit at all, because both are tested for truthiness before
being compared. -/
theorem c10_zero_limits_disabled (next : Nat → List Nat) (isSol : Nat → Bool)
    (states : List Nat) (dfs : Bool) (maxDepth nSols : Option Nat) (fuel : Nat) :
    iterative_search next isSol states dfs (some 0) nSols fuel =
        iterative_search next isSol states dfs none nSols fuel ∧
      iterative_search next isSol states dfs maxDepth (some 0) fuel =
        iterative_search next isSol states dfs maxDepth none fuel := by
  constructor
  · exact iterLoop_maxDepth_zero next isSol dfs nSols fuel _
  · exact iterLoop_nSols_zero next isSol dfs maxDepth fuel _

/-- C5 (code bug): a worker whose expansion raises exits without
decrementing the active-worker counter, while a worker whose expansion
succeeds decrements it exactly once.  Concretely: dequeuing `Node 0 7` from
the backlog with `wsize = 2` and an expansion that raises leaves
`wsize = 2`; the same dequeue with a succeeding expansion leaves it at 1. -/
theorem c5_crash_skips_worker_decrement :
    (worker (fun _ => Except.error ()) [⟨0, 7⟩] 3 2).2.crashed = true ∧
      (worker (fun _ => Except.error ()) [⟨0, 7⟩] 3 2).2.wsize = 2 ∧
      (worker (fun s => Except.ok [s + 1]) [⟨0, 7⟩] 3 2).2.crashed = false ∧
      (worker (fun s => Except.ok [s + 1]) [⟨0, 7⟩] 3 2).2.wsize = 1 := by
  refine ⟨rfl, rfl, rfl, rfl⟩

/-- C1 counterexample: on the one-state graph whose single initial state `0`
is itself a solution and has no successors, `recursive_search` returns
`{0}` while both `iterative_search` (DFS or BFS, no ceilings) and
`parallelized_search` return `∅`: the three solution sets are not
identical. -/
theorem c1_initial_solution_counterexample :
    recursive_search (fun _ => []) (fun _ => true) 5 0 = {0} ∧
      (iterative_search (fun _ => []) (fun _ => true) [0] true none none 5).map
          IterSt.solutions = some ∅ ∧
      (iterative_search (fun _ => []) (fun _ => true) [0] false none none 5).map
          IterSt.solutions = some ∅ ∧
      (parallelized_search (fun _ => []) (fun _ => true) [0] 1 5).map
          ParSt.solutions = some ∅ ∧
      ({0} : Finset Nat) ≠ ∅ := by
  refine ⟨rfl, rfl, rfl, rfl, by decide⟩

/-- C2 counterexample: in the graph `0 ↦ [2, 1]`, `1 ↦ [2]` (no solutions),
state `2` is reachable from the initial state `0` via two distinct paths,
and iterative DFS search invokes its expansion twice in one call: the
expansion-call trace is `[0, 1, 2, 2]`. -/
theorem c2_iterative_double_expansion :
    (iterative_search (fun s => if s = 0 then [2, 1] else if s = 1 then [2] else [])
          (fun _ => false) [0] true none none 10).map IterSt.expTrace =
        some [0, 1, 2, 2] ∧
      List.count 2 [0, 1, 2, 2] = 2 := by
  refine ⟨rfl, rfl⟩

/-- C3 counterexample: on the graph `0 ↦ [1]` with `1` the only solution and
the non-solution initial state `0`, iterative search called with
`max_depth = 0` returns `{1}`, not the empty set: a zero depth ceiling is
falsy and disables the limit instead of forbidding all expansion. -/
theorem c3_max_depth_zero_counterexample :
    (iterative_search (fun s => if s = 0 then [1] else []) (fun s => s = 1)
          [0] true (some 0) none 5).map IterSt.solutions = some {1} ∧
      ({1} : Finset Nat) ≠ ∅ := by
  refine ⟨rfl, by decide⟩

/-- C4 counterexample: on the chain `0 ↦ 1 ↦ 2 ↦ 3` where `1`, `2`, `3` are
all solutions, more than `k = 2` solutions are reachable from the initial
state `0`, yet iterative search with `n_sols = 2` returns the single-element
set `{1}`: once `1` is recorded as a solution it is never expanded, so the
deeper solutions are never discovered and the ceiling is never reached. -/
theorem c4_unreachable_solutions_counterexample :
    (iterative_search (fun s => if s ≤ 2 then [s + 1] else []) (fun s => 1 ≤ s)
          [0] true none (some 2) 10).map IterSt.solutions = some {1} ∧
      ReachK (fun s => if s ≤ 2 then [s + 1] else []) 1 0 1 ∧
      ReachK (fun s => if s ≤ 2 then [s + 1] else []) 2 0 2 ∧
      ReachK (fun s => if s ≤ 2 then [s + 1] else []) 3 0 3 ∧
      Finset.card {1} ≠ 2 := by
  have h01 : (1 : Nat) ∈ (if (0 : Nat) ≤ 2 then [0 + 1] else []) := by decide
  have h12 : (2 : Nat) ∈ (if (1 : Nat) ≤ 2 then [1 + 1] else []) := by decide
  have h23 : (3 : Nat) ∈ (if (2 : Nat) ≤ 2 then [2 + 1] else []) := by decide
  refine ⟨rfl, ?_, ?_, ?_, by decide⟩
  · exact ReachK.step h01 (ReachK.refl 1)
  · exact ReachK.step h01 (ReachK.step h12 (ReachK.refl 2))
  · exact ReachK.step h01 (ReachK.step h12 (ReachK.step h23 (ReachK.refl 3)))

/-- C6 counterexample: `parallelized_search` performs no input validation.
Supplying the invalid value (`none`) as the only member of the initial list
does not produce an immediate validation failure: the value is seeded, a
worker is spawned and invokes the expansion on it (the search starts), the
worker dies of the resulting `AttributeError` without decrementing the
active-worker counter, and the coordinator loops forever instead of
reporting anything. -/
theorem c6_parallel_no_validation :
    parallelized_search_raw (fun _ => []) (fun _ => false) [none] 1 5 =
      some (ParRawRes.hung [none]) := rfl

/-- Project the state out of either outcome of `procSuccs`. -/
def stOf : Sum IterSt IterSt → IterSt := Sum.elim id id

lemma stOf_inl (st : IterSt) : stOf (Sum.inl st) = st := rfl

lemma stOf_inr (st : IterSt) : stOf (Sum.inr st) = st := rfl

lemma procSuccs_footprints (isSol : Nat → Bool) (dfs : Bool) (nSols : Option Nat)
    (depth : Nat) : ∀ (l : List Nat) (st : IterSt),
    (stOf (procSuccs isSol dfs nSols depth l st)).footprints = st.footprints := by
  intro l
  induction l with
  | nil => intro st; rfl
  | cons t rest ih =>
    intro st
    simp only [procSuccs]
    split
    · split
      · rfl
      · exact ih _
    · split <;> exact ih _

lemma procSuccs_expTrace (isSol : Nat → Bool) (dfs : Bool) (nSols : Option Nat)
    (depth : Nat) : ∀ (l : List Nat) (st : IterSt),
    (stOf (procSuccs isSol dfs nSols depth l st)).expTrace = st.expTrace := by
  intro l
  induction l with
  | nil => intro st; rfl
  | cons t rest ih =>
    intro st
    simp only [procSuccs]
    split
    · split
      · rfl
      · exact ih _
    · split <;> exact ih _

lemma procSuccs_solutions_mono (isSol : Nat → Bool) (dfs : Bool) (nSols : Option Nat)
    (depth : Nat) : ∀ (l : List Nat) (st : IterSt) (x : Nat),
    x ∈ st.solutions → x ∈ (stOf (procSuccs isSol dfs nSols depth l st)).solutions := by
  intro l
  induction l with
  | nil => intro st x hx; exact hx
  | cons t rest ih =>
    intro st x hx
    simp only [procSuccs]
    split
    · split
      · exact Finset.mem_insert_of_mem hx
      · exact ih _ _ (Finset.mem_insert_of_mem hx)
    · split <;> exact ih _ _ hx

lemma procSuccs_backlog_mono (isSol : Nat → Bool) (dfs : Bool) (nSols : Option Nat)
    (depth : Nat) : ∀ (l : List Nat) (st : IterSt) (nd : Node Nat),
    nd ∈ st.backlog → nd ∈ (stOf (procSuccs isSol dfs nSols depth l st)).backlog := by
  intro l
  induction l with
  | nil => intro st nd h; exact h
  | cons t rest ih =>
    intro st nd h
    simp only [procSuccs]
    split
    · split
      · exact h
      · exact ih _ _ h
    · split
      · refine ih _ _ ?_
        by_cases hd : dfs <;> simp [hd, h]
      · exact ih _ _ h

lemma procSuccs_backlog_new (isSol : Nat → Bool) (dfs : Bool) (nSols : Option Nat)
    (depth : Nat) : ∀ (l : List Nat) (st : IterSt) (nd : Node Nat),
    nd ∈ (stOf (procSuccs isSol dfs nSols depth l st)).backlog →
      nd ∈ st.backlog ∨ (nd.depth = depth + 1 ∧ nd.state ∈ l) := by
  intro l
  induction l with
  | nil => intro st nd h; exact Or.inl h
  | cons t rest ih =>
    intro st nd h
    simp only [procSuccs] at h
    have hcons : nd ∈ st.backlog ∨ (nd.depth = depth + 1 ∧ nd.state ∈ t :: rest) →
        nd ∈ st.backlog ∨ (nd.depth = depth + 1 ∧ nd.state ∈ t :: rest) := id
    split at h
    · split at h
      · exact Or.inl h
      · rcases ih _ _ h with h' | ⟨h1, h2⟩
        · exact Or.inl h'
        · exact Or.inr ⟨h1, List.mem_cons_of_mem _ h2⟩
    · split at h
      · rcases ih _ _ h with h' | ⟨h1, h2⟩
        · by_cases hd : dfs = true
          · rw [if_pos hd] at h'
            rcases List.mem_cons.mp h' with h' | h'
            · subst h'; exact Or.inr ⟨rfl, List.mem_cons_self _ _⟩
            · exact Or.inl h'
          · rw [if_neg hd] at h'
            rcases List.mem_append.mp h' with h' | h'
            · exact Or.inl h'
            · rcases List.mem_singleton.mp h' with rfl
              exact Or.inr ⟨rfl, List.mem_cons_self _ _⟩
        · exact Or.inr ⟨h1, List.mem_cons_of_mem _ h2⟩
      · rcases ih _ _ h with h' | ⟨h1, h2⟩
        · exact Or.inl h'
        · exact Or.inr ⟨h1, List.mem_cons_of_mem _ h2⟩

lemma procSuccs_solutions_new (isSol : Nat → Bool) (dfs : Bool) (nSols : Option Nat)
    (depth : Nat) : ∀ (l : List Nat) (st : IterSt) (x : Nat),
    x ∈ (stOf (procSuccs isSol dfs nSols depth l st)).solutions →
      x ∈ st.solutions ∨ (isSol x = true ∧ x ∈ l) := by
  intro l
  induction l with
  | nil => intro st x h; exact Or.inl h
  | cons t rest ih =>
    intro st x h
    simp only [procSuccs] at h
    split at h
    · rename_i hsol
      have hmem : x ∈ (insert t st.solutions) →
          x ∈ st.solutions ∨ (isSol x = true ∧ x ∈ t :: rest) := by
        intro hx
        rcases Finset.mem_insert.mp hx with rfl | hx
        · exact Or.inr ⟨hsol.1, List.mem_cons_self _ _⟩
        · exact Or.inl hx
      split at h
      · exact hmem h
      · rcases ih _ _ h with h' | ⟨h1, h2⟩
        · exact hmem h'
        · exact Or.inr ⟨h1, List.mem_cons_of_mem _ h2⟩
    · split at h <;>
      · rcases ih _ _ h with h' | ⟨h1, h2⟩
        · exact Or.inl h'
        · exact Or.inr ⟨h1, List.mem_cons_of_mem _ h2⟩

lemma procSuccs_solTrace_new (isSol : Nat → Bool) (dfs : Bool) (nSols : Option Nat)
    (depth : Nat) : ∀ (l : List Nat) (st : IterSt) (x : Nat),
    x ∈ (stOf (procSuccs isSol dfs nSols depth l st)).solTrace →
      x ∈ st.solTrace ∨ x ∈ l := by
  intro l
  induction l with
  | nil => intro st x h; exact Or.inl h
  | cons t rest ih =>
    intro st x h
    simp only [procSuccs] at h
    have step : x ∈ st.solTrace ++ [t] → x ∈ st.solTrace ∨ x ∈ t :: rest := by
      intro hx
      rcases List.mem_append.mp hx with hx | hx
      · exact Or.inl hx
      · simp only [List.mem_singleton] at hx
        subst hx; exact Or.inr (List.mem_cons_self _ _)
    split at h
    · split at h
      · exact step h
      · rcases ih _ _ h with h' | h'
        · exact step h'
        · exact Or.inr (List.mem_cons_of_mem _ h')
    · split at h <;>
      · rcases ih _ _ h with h' | h'
        · exact step h'
        · exact Or.inr (List.mem_cons_of_mem _ h')

lemma procSuccs_none_inr (isSol : Nat → Bool) (dfs : Bool) (depth : Nat) :
    ∀ (l : List Nat) (st : IterSt), ∃ st',
      procSuccs isSol dfs none depth l st = Sum.inr st' := by
  intro l
  induction l with
  | nil => intro st; exact ⟨st, rfl⟩
  | cons t rest ih =>
    intro st
    simp only [procSuccs, earlyTerm, Bool.false_eq_true, if_false]
    split
    · exact ih _
    · split <;> exact ih _

lemma procSuccs_inr_solutions_mono {isSol : Nat → Bool} {dfs : Bool}
    {nSols : Option Nat} {depth : Nat} {l : List Nat} {st st' : IterSt} {x : Nat}
    (h : procSuccs isSol dfs nSols depth l st = Sum.inr st')
    (hx : x ∈ st.solutions) : x ∈ st'.solutions := by
  have := procSuccs_solutions_mono isSol dfs nSols depth l st x hx
  rwa [h, stOf_inr] at this

lemma procSuccs_inr_backlog_mono {isSol : Nat → Bool} {dfs : Bool}
    {nSols : Option Nat} {depth : Nat} {l : List Nat} {st st' : IterSt} {nd : Node Nat}
    (h : procSuccs isSol dfs nSols depth l st = Sum.inr st')
    (hnd : nd ∈ st.backlog) : nd ∈ st'.backlog := by
  have := procSuccs_backlog_mono isSol dfs nSols depth l st nd hnd
  rwa [h, stOf_inr] at this

lemma procSuccs_inr_classified (isSol : Nat → Bool) (dfs : Bool) (nSols : Option Nat)
    (depth : Nat) : ∀ (l : List Nat) (st st' : IterSt),
    procSuccs isSol dfs nSols depth l st = Sum.inr st' →
      ∀ u ∈ l, (isSol u = true → u ∈ st'.solutions) ∧
        (isSol u = false → u ∈ st.footprints ∨ ∃ nd ∈ st'.backlog, nd.state = u) := by
  intro l
  induction l with
  | nil => intro st st' _ u hu; cases hu
  | cons t rest ih =>
    intro st st' h u hu
    simp only [procSuccs] at h
    split at h
    · rename_i hc
      split at h
      · cases h
      · rcases List.mem_cons.mp hu with rfl | hu
        · exact ⟨fun _ => procSuccs_inr_solutions_mono h (Finset.mem_insert_self u _),
            fun hf => absurd hc.1 (by simp [hf])⟩
        · have := ih _ _ h u hu
          simpa using this
    · rename_i hc
      split at h
      · rename_i hfp
        rcases List.mem_cons.mp hu with rfl | hu
        · constructor
          · intro hsol
            have ht : u ∈ st.solutions := by
              by_contra hns
              exact hc ⟨hsol, hns⟩
            exact procSuccs_inr_solutions_mono h ht
          · intro _
            refine Or.inr ⟨⟨depth + 1, u⟩, procSuccs_inr_backlog_mono h ?_, rfl⟩
            show (⟨depth + 1, u⟩ : Node Nat) ∈
              (if dfs = true then (⟨depth + 1, u⟩ : Node Nat) :: st.backlog
               else st.backlog ++ [⟨depth + 1, u⟩])
            by_cases hd : dfs = true <;> simp [hd]
        · have := ih _ _ h u hu
          simpa using this
      · rename_i hfp
        rcases List.mem_cons.mp hu with rfl | hu
        · constructor
          · intro hsol
            have ht : u ∈ st.solutions := by
              by_contra hns
              exact hc ⟨hsol, hns⟩
            exact procSuccs_inr_solutions_mono h ht
          · intro _
            simp only [not_not] at hfp
            exact Or.inl hfp
        · have := ih _ _ h u hu
          simpa using this

/-- Depth admissibility of a discovery path under a configured `max_depth`:
no constraint when the argument is absent or falsy (`0`). -/
def depthBound : Option Nat → Nat → Prop
  | none, _ => True
  | some d, k => d = 0 ∨ k ≤ d

lemma depthBound_of_not_tooDeep {maxDepth : Option Nat} {p : Nat}
    (h : tooDeep maxDepth p = false) : depthBound maxDepth (p + 1) := by
  cases maxDepth with
  | none => trivial
  | some d =>
    by_cases hd : d = 0
    · exact Or.inl hd
    · simp only [tooDeep, hd, if_false, decide_eq_false_iff_not, not_le] at h
      exact Or.inr h

/-- Soundness invariant for `iterative_search`: every backlog node's depth
is the length of a real path from an initial state to its state, and every
recorded solution satisfies the predicate and was discovered over a path of
positive, depth-admissible length. -/
def IterSound (next : Nat → List Nat) (isSol : Nat → Bool) (inits : List Nat)
    (maxDepth : Option Nat) (st : IterSt) : Prop :=
  (∀ nd ∈ st.backlog, ∃ i ∈ inits, ReachK next nd.depth i nd.state) ∧
    (∀ x ∈ st.solutions, isSol x = true ∧
      ∃ i ∈ inits, ∃ k, 1 ≤ k ∧ depthBound maxDepth k ∧ ReachK next k i x)

lemma iterBody_sound {next : Nat → List Nat} {isSol : Nat → Bool} {dfs : Bool}
    {maxDepth nSols : Option Nat} {inits : List Nat} {cur : Node Nat} {st : IterSt}
    (hcur : ∃ i ∈ inits, ReachK next cur.depth i cur.state)
    (hst : IterSound next isSol inits maxDepth st) :
    IterSound next isSol inits maxDepth
      (stOf (iterBody next isSol dfs maxDepth nSols cur st)) := by
  rcases hst with ⟨hbl, hsol⟩
  simp only [iterBody]
  by_cases hdeep : tooDeep maxDepth cur.depth = true
  · rw [if_pos hdeep]
    exact ⟨hbl, hsol⟩
  · rw [if_neg hdeep]
    have hd : tooDeep maxDepth cur.depth = false := by
      simpa using hdeep
    rcases hR : procSuccs isSol dfs nSols cur.depth (next cur.state)
        { st with expTrace := st.expTrace ++ [cur.state] } with stE | st2
    all_goals {
      constructor
      · intro nd hnd
        have hnew := procSuccs_backlog_new isSol dfs nSols cur.depth (next cur.state)
          { st with expTrace := st.expTrace ++ [cur.state] } nd
        rw [hR] at hnew
        rcases hnew hnd with hold | ⟨hdep, hmem⟩
        · exact hbl nd hold
        · rcases hcur with ⟨i, hi, hreach⟩
          exact ⟨i, hi, hdep ▸ hreach.snoc hmem⟩
      · intro x hx
        have hnew := procSuccs_solutions_new isSol dfs nSols cur.depth (next cur.state)
          { st with expTrace := st.expTrace ++ [cur.state] } x
        rw [hR] at hnew
        rcases hnew hx with hold | ⟨hx1, hx2⟩
        · exact hsol x hold
        · rcases hcur with ⟨i, hi, hreach⟩
          exact ⟨hx1, i, hi, cur.depth + 1, Nat.succ_le_succ (Nat.zero_le _),
            depthBound_of_not_tooDeep hd, hreach.snoc hx2⟩
    }

lemma iterLoop_sound {next : Nat → List Nat} {isSol : Nat → Bool} {dfs : Bool}
    {maxDepth nSols : Option Nat} {inits : List Nat} :
    ∀ {fuel : Nat} {st st' : IterSt},
      iterLoop next isSol dfs maxDepth nSols fuel st = some st' →
      IterSound next isSol inits maxDepth st →
      IterSound next isSol inits maxDepth st' := by
  intro fuel
  induction fuel with
  | zero => intro st st' h; cases h
  | succ fuel ih =>
    intro st st' h hst
    rcases hb : st.backlog with _ | ⟨cur, rest⟩ <;> simp only [iterLoop, hb] at h
    · cases h; exact hst
    · have hcur : ∃ i ∈ inits, ReachK next cur.depth i cur.state :=
        hst.1 cur (hb ▸ List.mem_cons_self _ _)
      have hst0 : IterSound next isSol inits maxDepth { st with backlog := rest } :=
        ⟨fun nd hnd => hst.1 nd (hb ▸ List.mem_cons_of_mem _ hnd), hst.2⟩
      have hbody := @iterBody_sound next isSol dfs maxDepth nSols inits cur _ hcur hst0
      rcases hB : iterBody next isSol dfs maxDepth nSols cur { st with backlog := rest }
          with stE | st2 <;> rw [hB] at hbody <;> simp only [hB] at h
      · rw [stOf_inl] at hbody
        cases h
        exact hbody
      · rw [stOf_inr] at hbody
        exact ih h hbody

lemma iterative_search_sound {next : Nat → List Nat} {isSol : Nat → Bool}
    {states : List Nat} {dfs : Bool} {maxDepth nSols : Option Nat} {fuel : Nat}
    {st' : IterSt}
    (h : iterative_search next isSol states dfs maxDepth nSols fuel = some st') :
    IterSound next isSol states maxDepth st' := by
  refine iterLoop_sound h ⟨?_, ?_⟩
  · intro nd hnd
    simp only [List.mem_reverse, List.mem_map] at hnd
    rcases hnd with ⟨s, hs, rfl⟩
    exact ⟨s, hs, ReachK.refl s⟩
  · intro x hx
    cases hx

/-- C3 (amended): for a configured `max_depth = d` with `d ≥ 1`, every
solution returned by `iterative_search` is reachable from some initial
state via a path of length at most `d` (and at least 1), so no returned
solution is reachable only via paths longer than `d`.  (The `maxDepth = 0`
half of the original claim is refuted by
`c3_max_depth_zero_counterexample`.) -/
theorem c3_depth_ceiling (next : Nat → List Nat) (isSol : Nat → Bool)
    (states : List Nat) (dfs : Bool) (d : Nat) (nSols : Option Nat) (fuel : Nat)
    (S : Finset Nat) (hd : 1 ≤ d)
    (h : (iterative_search next isSol states dfs (some d) nSols fuel).map
        IterSt.solutions = some S) :
    ∀ x ∈ S, isSol x = true ∧ ∃ i ∈ states, ∃ k, 1 ≤ k ∧ k ≤ d ∧ ReachK next k i x := by
  intro x hx
  rcases hrun : iterative_search next isSol states dfs (some d) nSols fuel with _ | st'
  · rw [hrun] at h; cases h
  · rw [hrun] at h
    rw [show (some st').map IterSt.solutions = some st'.solutions from rfl] at h
    cases h
    have hsound := iterative_search_sound hrun
    rcases hsound.2 x hx with ⟨hxsol, i, hi, k, hk1, hkd, hreach⟩
    rcases hkd with hkd | hkd
    · omega
    · exact ⟨hxsol, i, hi, k, hk1, hkd, hreach⟩

/-- Witness for `c3_depth_ceiling` at the graph `0 ↦ [1]` with solution `1`,
depth ceiling 1 and solution set `{1}`. -/
theorem c3_depth_ceiling_witness :
    (fun s => decide (s = 1)) 1 = true ∧
      ∃ i ∈ [0], ∃ k, 1 ≤ k ∧ k ≤ 1 ∧
        ReachK (fun s => if s = 0 then [1] else []) k i 1 :=
  c3_depth_ceiling (fun s => if s = 0 then [1] else []) (fun s => decide (s = 1))
    [0] true 1 none 5 {1} (by decide) rfl 1 (by decide)

lemma procSuccs_inr_solutions_subset {isSol : Nat → Bool} {dfs : Bool}
    {nSols : Option Nat} {depth : Nat} {l : List Nat} {st st' : IterSt}
    (h : procSuccs isSol dfs nSols depth l st = Sum.inr st') :
    st.solutions ⊆ st'.solutions :=
  fun _ hx => procSuccs_inr_solutions_mono h hx

lemma earlyTerm_some_pos {k c : Nat} (hk : 1 ≤ k) :
    earlyTerm (some k) c = decide (k ≤ c) := by
  simp only [earlyTerm]
  rw [if_neg (by omega)]

lemma procSuccs_compare {isSol : Nat → Bool} {dfs : Bool} {depth : Nat} {k : Nat}
    (hk : 1 ≤ k) : ∀ (l : List Nat) (st stU : IterSt),
    procSuccs isSol dfs none depth l st = Sum.inr stU →
    st.solutions.card < k →
      (stU.solutions.card < k →
        procSuccs isSol dfs (some k) depth l st = Sum.inr stU) ∧
      (k ≤ stU.solutions.card →
        ∃ stE, procSuccs isSol dfs (some k) depth l st = Sum.inl stE ∧
          stE.solutions.card = k) := by
  intro l
  induction l with
  | nil =>
    intro st stU h hlt
    cases h
    exact ⟨fun _ => rfl, fun hge => absurd hge (by omega)⟩
  | cons t rest ih =>
    intro st stU h hlt
    simp only [procSuccs] at h ⊢
    split at h <;> rename_i hc
    · rw [if_pos hc]
      simp only [earlyTerm, Bool.false_eq_true, if_false] at h
      have hcard : (insert t st.solutions).card = st.solutions.card + 1 :=
        Finset.card_insert_of_not_mem hc.2
      by_cases hge : k ≤ (insert t st.solutions).card
      · have hEq : (insert t st.solutions).card = k := by omega
        have hsub := procSuccs_inr_solutions_subset h
        have hcard2 : k ≤ stU.solutions.card := by
          calc k = (insert t st.solutions).card := hEq.symm
            _ ≤ stU.solutions.card := Finset.card_le_card hsub
        rw [earlyTerm_some_pos hk, decide_eq_true hge, if_pos rfl]
        exact ⟨fun hlt' => absurd hcard2 (by omega),
          fun _ => ⟨_, rfl, hEq⟩⟩
      · rw [earlyTerm_some_pos hk, decide_eq_false hge]
        rw [if_neg (by simp)]
        refine ih _ _ h ?_
        show (insert t st.solutions).card < k
        omega
    · rw [if_neg hc]
      split at h <;> rename_i hfp
      · rw [if_pos hfp]
        exact ih _ _ h hlt
      · rw [if_neg hfp]
        exact ih _ _ h hlt

lemma iterLoop_compare {next : Nat → List Nat} {isSol : Nat → Bool} {dfs : Bool}
    {maxDepth : Option Nat} {k : Nat} (hk : 1 ≤ k) :
    ∀ (fuel : Nat) (st stU : IterSt),
      iterLoop next isSol dfs maxDepth none fuel st = some stU →
      st.solutions.card < k → k ≤ stU.solutions.card →
      ∃ stL, iterLoop next isSol dfs maxDepth (some k) fuel st = some stL ∧
        stL.solutions.card = k := by
  intro fuel
  induction fuel with
  | zero => intro st stU h _ _; cases h
  | succ fuel ih =>
    intro st stU h hlt hge
    rcases hb : st.backlog with _ | ⟨cur, rest⟩ <;>
      simp only [iterLoop, iterBody, hb] at h ⊢
    · cases h
      exact absurd hge (by omega)
    · by_cases hdeep : tooDeep maxDepth cur.depth = true
      · rw [if_pos hdeep] at h ⊢
        exact ih _ _ h hlt hge
      · rw [if_neg hdeep] at h ⊢
        obtain ⟨stM, hM⟩ := procSuccs_none_inr isSol dfs cur.depth (next cur.state)
          { st with backlog := rest, expTrace := st.expTrace ++ [cur.state] }
        rw [hM] at h
        have hcmp := procSuccs_compare hk (next cur.state)
          { st with backlog := rest, expTrace := st.expTrace ++ [cur.state] } stM hM
          (show st.solutions.card < k from hlt)
        by_cases hMk : stM.solutions.card < k
        · rw [hcmp.1 hMk]
          have hlt2 : ({ stM with footprints := insert cur.state stM.footprints } :
              IterSt).solutions.card < k := hMk
          obtain ⟨stL, hL, hc⟩ := ih _ _ h hlt2 hge
          exact ⟨stL, hL, hc⟩
        · obtain ⟨stE, hE, hcard⟩ := hcmp.2 (by omega)
          rw [hE]
          exact ⟨stE, rfl, hcard⟩

/-- C4 (amended): if the unlimited iterative search (same graph, initial
states, traversal order and depth ceiling) terminates with more than `k`
solutions, then the same search with `n_sols = k` (for `k ≥ 1`) returns a
set of exactly `k` states, each of which satisfies the solution predicate.
(The original phrasing — more than `k` solutions merely being reachable —
is refuted by `c4_unreachable_solutions_counterexample`.) -/
theorem c4_solution_ceiling (next : Nat → List Nat) (isSol : Nat → Bool)
    (states : List Nat) (dfs : Bool) (maxDepth : Option Nat) (k fuel : Nat)
    (SU : Finset Nat) (hk : 1 ≤ k)
    (hU : (iterative_search next isSol states dfs maxDepth none fuel).map
        IterSt.solutions = some SU)
    (hmore : k < SU.card) :
    ∃ SL, (iterative_search next isSol states dfs maxDepth (some k) fuel).map
        IterSt.solutions = some SL ∧
      SL.card = k ∧ ∀ x ∈ SL, isSol x = true := by
  rcases hrun : iterative_search next isSol states dfs maxDepth none fuel with _ | stU
  · rw [hrun] at hU; cases hU
  · rw [hrun] at hU
    rw [show (some stU).map IterSt.solutions = some stU.solutions from rfl] at hU
    cases hU
    obtain ⟨stL, hL, hcard⟩ := iterLoop_compare hk fuel _ stU hrun
      (by simp only [Finset.card_empty]; omega) (by omega)
    refine ⟨stL.solutions, ?_, hcard, ?_⟩
    · rw [show iterative_search next isSol states dfs maxDepth (some k) fuel =
        iterLoop next isSol dfs maxDepth (some k) fuel
          ⟨(states.map (Node.mk 0)).reverse, ∅, ∅, [], []⟩ from rfl, hL]
      rfl
    · intro x hx
      exact ((@iterative_search_sound next isSol states dfs maxDepth (some k) fuel stL hL).2 x hx).1

/-- Witness for `c4_solution_ceiling`: on the graph `0 ↦ [1, 2, 3]` with
solutions `1, 2, 3`, the unlimited search finds `{1, 2, 3}` (more than 2),
and the `n_sols = 2` search returns exactly 2 valid solutions. -/
theorem c4_solution_ceiling_witness :
    ∃ SL, (iterative_search (fun s => if s = 0 then [1, 2, 3] else [])
        (fun s => decide (1 ≤ s)) [0] true none (some 2) 10).map
        IterSt.solutions = some SL ∧
      SL.card = 2 ∧ ∀ x ∈ SL, (fun s => decide (1 ≤ s)) x = true :=
  c4_solution_ceiling (fun s => if s = 0 then [1, 2, 3] else [])
    (fun s => decide (1 ≤ s)) [0] true none 2 10 {3, 2, 1} (by decide) rfl
    (by decide)

lemma classifyAll_expTrace (isSol : Nat → Bool) : ∀ (l : List (Node Nat)) (st : ParSt),
    (classifyAll isSol l st).expTrace = st.expTrace := by
  intro l
  induction l with
  | nil => intro st; rfl
  | cons r rest ih =>
    intro st
    simp only [classifyAll]
    split
    · exact ih _
    · split <;> exact ih _

lemma classifyAll_footprints_mono (isSol : Nat → Bool) :
    ∀ (l : List (Node Nat)) (st : ParSt) (f : Nat),
    f ∈ st.footprints → f ∈ (classifyAll isSol l st).footprints := by
  intro l
  induction l with
  | nil => intro st f hf; exact hf
  | cons r rest ih =>
    intro st f hf
    simp only [classifyAll]
    split
    · exact ih _ _ hf
    · split
      · exact ih _ _ hf
      · exact ih _ _ (Finset.mem_insert_of_mem hf)

lemma classifyAll_solutions_mono (isSol : Nat → Bool) :
    ∀ (l : List (Node Nat)) (st : ParSt) (x : Nat),
    x ∈ st.solutions → x ∈ (classifyAll isSol l st).solutions := by
  intro l
  induction l with
  | nil => intro st x hx; exact hx
  | cons r rest ih =>
    intro st x hx
    simp only [classifyAll]
    split
    · exact ih _ _ hx
    · split
      · exact ih _ _ (Finset.mem_insert_of_mem hx)
      · exact ih _ _ hx

lemma classifyAll_backlog_mono (isSol : Nat → Bool) :
    ∀ (l : List (Node Nat)) (st : ParSt) (nd : Node Nat),
    nd ∈ st.backlog → nd ∈ (classifyAll isSol l st).backlog := by
  intro l
  induction l with
  | nil => intro st nd h; exact h
  | cons r rest ih =>
    intro st nd h
    simp only [classifyAll]
    split
    · exact ih _ _ h
    · split
      · exact ih _ _ h
      · exact ih _ _ (List.mem_append_left _ h)

lemma classifyAll_backlog_new (isSol : Nat → Bool) :
    ∀ (l : List (Node Nat)) (st : ParSt) (nd : Node Nat),
    nd ∈ (classifyAll isSol l st).backlog →
      nd ∈ st.backlog ∨ (nd ∈ l ∧ isSol nd.state = false ∧ nd.state ∉ st.footprints) := by
  intro l
  induction l with
  | nil => intro st nd h; exact Or.inl h
  | cons r rest ih =>
    intro st nd h
    simp only [classifyAll] at h
    split at h <;> rename_i hfp
    · rcases ih _ _ h with h' | ⟨h1, h2, h3⟩
      · exact Or.inl h'
      · exact Or.inr ⟨List.mem_cons_of_mem _ h1, h2, h3⟩
    · split at h <;> rename_i hsol
      · rcases ih _ _ h with h' | ⟨h1, h2, h3⟩
        · exact Or.inl h'
        · exact Or.inr ⟨List.mem_cons_of_mem _ h1, h2, h3⟩
      · rcases ih _ _ h with h' | ⟨h1, h2, h3⟩
        · rcases List.mem_append.mp h' with h' | h'
          · exact Or.inl h'
          · rcases List.mem_singleton.mp h' with rfl
            exact Or.inr ⟨List.mem_cons_self _ _, by simpa using hsol, hfp⟩
        · refine Or.inr ⟨List.mem_cons_of_mem _ h1, h2, fun hc => h3 ?_⟩
          exact Finset.mem_insert_of_mem hc
    
lemma classifyAll_solutions_new (isSol : Nat → Bool) :
    ∀ (l : List (Node Nat)) (st : ParSt) (x : Nat),
    x ∈ (classifyAll isSol l st).solutions →
      x ∈ st.solutions ∨
        (isSol x = true ∧ x ∉ st.footprints ∧ ∃ r ∈ l, r.state = x) := by
  intro l
  induction l with
  | nil => intro st x h; exact Or.inl h
  | cons r rest ih =>
    intro st x h
    simp only [classifyAll] at h
    split at h <;> rename_i hfp
    · rcases ih _ _ h with h' | ⟨h1, h2, r', hr', h3⟩
      · exact Or.inl h'
      · exact Or.inr ⟨h1, h2, r', List.mem_cons_of_mem _ hr', h3⟩
    · split at h <;> rename_i hsol
      · rcases ih _ _ h with h' | ⟨h1, h2, r', hr', h3⟩
        · rcases Finset.mem_insert.mp h' with rfl | h'
          · exact Or.inr ⟨hsol, hfp, r, List.mem_cons_self _ _, rfl⟩
          · exact Or.inl h'
        · exact Or.inr ⟨h1, h2, r', List.mem_cons_of_mem _ hr', h3⟩
      · rcases ih _ _ h with h' | ⟨h1, h2, r', hr', h3⟩
        · exact Or.inl h'
        · refine Or.inr ⟨h1, fun hc => h2 (Finset.mem_insert_of_mem hc), r',
            List.mem_cons_of_mem _ hr', h3⟩

lemma classifyAll_footprints_new (isSol : Nat → Bool) :
    ∀ (l : List (Node Nat)) (st : ParSt) (f : Nat),
    f ∈ (classifyAll isSol l st).footprints →
      f ∈ st.footprints ∨ (isSol f = false ∧ ∃ r ∈ l, r.state = f) := by
  intro l
  induction l with
  | nil => intro st f h; exact Or.inl h
  | cons r rest ih =>
    intro st f h
    simp only [classifyAll] at h
    split at h <;> rename_i hfp
    · rcases ih _ _ h with h' | ⟨h1, r', hr', h2⟩
      · exact Or.inl h'
      · exact Or.inr ⟨h1, r', List.mem_cons_of_mem _ hr', h2⟩
    · split at h <;> rename_i hsol
      · rcases ih _ _ h with h' | ⟨h1, r', hr', h2⟩
        · exact Or.inl h'
        · exact Or.inr ⟨h1, r', List.mem_cons_of_mem _ hr', h2⟩
      · rcases ih _ _ h with h' | ⟨h1, r', hr', h2⟩
        · rcases Finset.mem_insert.mp h' with rfl | h'
          · exact Or.inr ⟨by simpa using hsol, r, List.mem_cons_self _ _, rfl⟩
          · exact Or.inl h'
        · exact Or.inr ⟨h1, r', List.mem_cons_of_mem _ hr', h2⟩

lemma classifyAll_classified (isSol : Nat → Bool) :
    ∀ (l : List (Node Nat)) (st : ParSt), ∀ r ∈ l,
    r.state ∈ (classifyAll isSol l st).footprints ∨
      r.state ∈ (classifyAll isSol l st).solutions := by
  intro l
  induction l with
  | nil => intro st r hr; cases hr
  | cons r0 rest ih =>
    intro st r hr
    rcases List.mem_cons.mp hr with rfl | hr
    · simp only [classifyAll]
      split <;> rename_i hfp
      · exact Or.inl (classifyAll_footprints_mono isSol _ _ _ hfp)
      · split <;> rename_i hsol
        · exact Or.inr (classifyAll_solutions_mono isSol _ _ _ (Finset.mem_insert_self _ _))
        · exact Or.inl (classifyAll_footprints_mono isSol _ _ _ (Finset.mem_insert_self _ _))
    · simp only [classifyAll]
      split
      · exact ih _ r hr
      · split <;> exact ih _ r hr

lemma classifyAll_solTrace_new (isSol : Nat → Bool) :
    ∀ (l : List (Node Nat)) (st : ParSt) (x : Nat),
    x ∈ (classifyAll isSol l st).solTrace →
      x ∈ st.solTrace ∨ ∃ r ∈ l, r.state = x := by
  intro l
  induction l with
  | nil => intro st x h; exact Or.inl h
  | cons r rest ih =>
    intro st x h
    simp only [classifyAll] at h
    have hstep : x ∈ st.solTrace ++ [r.state] → x ∈ st.solTrace ∨ ∃ r' ∈ r :: rest, Node.state r' = x := by
      intro hx
      rcases List.mem_append.mp hx with hx | hx
      · exact Or.inl hx
      · rcases List.mem_singleton.mp hx with rfl
        exact Or.inr ⟨r, List.mem_cons_self _ _, rfl⟩
    split at h
    · rcases ih _ _ h with h' | ⟨r', hr', h2⟩
      · exact Or.inl h'
      · exact Or.inr ⟨r', List.mem_cons_of_mem _ hr', h2⟩
    · split at h <;>
      · rcases ih _ _ h with h' | ⟨r', hr', h2⟩
        · exact hstep h'
        · exact Or.inr ⟨r', List.mem_cons_of_mem _ hr', h2⟩

/-- Deduplication invariant of the parallel coordinator: backlog states are
pairwise distinct, expanded states are pairwise distinct, both are
footprinted, and no state is simultaneously pending and already expanded. -/
def ParNoDup (st : ParSt) : Prop :=
  (st.backlog.map Node.state).Nodup ∧ st.expTrace.Nodup ∧
    (∀ nd ∈ st.backlog, nd.state ∈ st.footprints) ∧
    (∀ s ∈ st.expTrace, s ∈ st.footprints) ∧
    (∀ s ∈ st.expTrace, s ∉ st.backlog.map Node.state)

lemma classifyAll_nodup (isSol : Nat → Bool) : ∀ (l : List (Node Nat)) (st : ParSt),
    ParNoDup st → ParNoDup (classifyAll isSol l st) := by
  intro l
  induction l with
  | nil => intro st h; exact h
  | cons r rest ih =>
    intro st h
    simp only [classifyAll]
    split <;> rename_i hfp
    · exact ih _ h
    · split <;> rename_i hsol
      · exact ih _ ⟨h.1, h.2.1, h.2.2.1, h.2.2.2.1, h.2.2.2.2⟩
      · refine ih _ ?_
        rcases h with ⟨h1, h2, h3, h4, h5⟩
        refine ⟨?_, h2, ?_, ?_, ?_⟩
        · rw [List.map_append]
          refine List.Nodup.append h1 (List.nodup_singleton _) ?_
          intro a ha hb
          rcases List.mem_singleton.mp hb with rfl
          rcases List.mem_map.mp ha with ⟨nd, hnd, hnds⟩
          exact hfp (hnds ▸ h3 nd hnd)
        · intro nd hnd
          rcases List.mem_append.mp hnd with hnd | hnd
          · exact Finset.mem_insert_of_mem (h3 nd hnd)
          · rcases List.mem_singleton.mp hnd with rfl
            exact Finset.mem_insert_self _ _
        · intro s hs
          exact Finset.mem_insert_of_mem (h4 s hs)
        · intro s hs hmem
          rw [List.map_append] at hmem
          rcases List.mem_append.mp hmem with hmem | hmem
          · exact h5 s hs hmem
          · rcases List.mem_singleton.mp hmem with h'
            exact hfp (h' ▸ h4 s hs)

lemma parLoop_nodup (next : Nat → List Nat) (isSol : Nat → Bool) :
    ∀ (fuel : Nat) (st st' : ParSt),
    parLoop next isSol fuel st = some st' → ParNoDup st → ParNoDup st' := by
  intro fuel
  induction fuel with
  | zero => intro st st' h; cases h
  | succ fuel ih =>
    intro st st' h hst
    rcases hb : st.backlog with _ | ⟨cur, rest⟩ <;> simp only [parLoop, hb] at h
    · cases h; exact hst
    · refine ih _ _ h (classifyAll_nodup isSol _ _ ?_)
      rcases hst with ⟨h1, h2, h3, h4, h5⟩
      rw [hb] at h1 h3 h5
      simp only [List.map_cons, List.nodup_cons] at h1
      have hcurfp : cur.state ∈ st.footprints := h3 cur (List.mem_cons_self _ _)
      have hcurexp : cur.state ∉ st.expTrace := by
        intro hc
        exact h5 _ hc (List.mem_cons_self _ _)
      refine ⟨h1.2, ?_, ?_, ?_, ?_⟩
      · simp only [List.nodup_append, List.nodup_singleton, h2, true_and]
        simpa using fun hc => hcurexp hc
      · intro nd hnd
        exact h3 nd (List.mem_cons_of_mem _ hnd)
      · intro s hs
        rcases List.mem_append.mp hs with hs | hs
        · exact h4 s hs
        · rcases List.mem_singleton.mp hs with rfl
          exact hcurfp
      · intro s hs hmem
        rcases List.mem_append.mp hs with hs | hs
        · exact h5 s hs (List.mem_cons_of_mem _ hmem)
        · rcases List.mem_singleton.mp hs with rfl
          exact h1.1 hmem

/-- C2 (amended): in the parallel strategy every state's expansion is
invoked at most once per top-level search call (for pairwise-distinct
initial states): the expansion-call trace of any terminating run has no
duplicates.  The iterative strategy does not share this property: a state
reachable via two distinct paths can be expanded twice
(`c2_iterative_double_expansion`), because `iterative_search` footprints a
state only after expanding it and never re-checks the footprint set when
popping. -/
theorem c2_parallel_expands_at_most_once (next : Nat → List Nat) (isSol : Nat → Bool)
    (states : List Nat) (maxWorkerCount fuel : Nat) (tr : List Nat)
    (hdup : states.Nodup)
    (h : (parallelized_search next isSol states maxWorkerCount fuel).map
        ParSt.expTrace = some tr) :
    tr.Nodup := by
  rcases hrun : parallelized_search next isSol states maxWorkerCount fuel with _ | st'
  · rw [hrun] at h; cases h
  · rw [hrun] at h
    rw [show (some st').map ParSt.expTrace = some st'.expTrace from rfl] at h
    cases h
    refine (parLoop_nodup next isSol fuel _ st' hrun ⟨?_, ?_, ?_, ?_, ?_⟩).2.1
    · rw [List.map_map]
      rw [show (Node.state ∘ Node.mk 0 : Nat → Nat) = id from rfl, List.map_id]
      exact hdup
    · exact List.nodup_nil
    · intro nd hnd
      rcases List.mem_map.mp hnd with ⟨s, hs, rfl⟩
      simpa using List.mem_toFinset.mpr hs
    · intro s hs; cases hs
    · intro s hs; cases hs

/-- Witness for `c2_parallel_expands_at_most_once`: in the diamond graph
`0 ↦ [2, 1]`, `1 ↦ [2]` (the same graph on which the iterative strategy
expands state `2` twice), the parallel expansion trace is `[0, 2, 1]` —
each state expanded once. -/
theorem c2_parallel_expands_at_most_once_witness :
    ([0, 2, 1] : List Nat).Nodup :=
  c2_parallel_expands_at_most_once
    (fun s => if s = 0 then [2, 1] else if s = 1 then [2] else [])
    (fun _ => false) [0] 1 10 [0, 2, 1] (by decide) rfl

/-- Trace invariant of `iterative_search`: the solution predicate has only
been invoked on states produced as successors by some already-performed
expansion, and every recorded solution was produced that way. -/
def IterTrace (next : Nat → List Nat) (st : IterSt) : Prop :=
  (∀ x ∈ st.solTrace, ∃ p ∈ st.expTrace, x ∈ next p) ∧
    (∀ x ∈ st.solutions, ∃ p ∈ st.expTrace, x ∈ next p)

lemma iterBody_trace {next : Nat → List Nat} {isSol : Nat → Bool} {dfs : Bool}
    {maxDepth nSols : Option Nat} {cur : Node Nat} {st : IterSt}
    (h : IterTrace next st) :
    IterTrace next (stOf (iterBody next isSol dfs maxDepth nSols cur st)) := by
  simp only [iterBody]
  by_cases hdeep : tooDeep maxDepth cur.depth = true
  · rw [if_pos hdeep]
    exact h
  · rw [if_neg hdeep]
    rcases hR : procSuccs isSol dfs nSols cur.depth (next cur.state)
        { st with expTrace := st.expTrace ++ [cur.state] } with stE | st2
    all_goals {
      have hexp := procSuccs_expTrace isSol dfs nSols cur.depth (next cur.state)
        { st with expTrace := st.expTrace ++ [cur.state] }
      have hsolT := procSuccs_solTrace_new isSol dfs nSols cur.depth (next cur.state)
        { st with expTrace := st.expTrace ++ [cur.state] }
      have hsolS := procSuccs_solutions_new isSol dfs nSols cur.depth (next cur.state)
        { st with expTrace := st.expTrace ++ [cur.state] }
      rw [hR] at hexp hsolT hsolS
      constructor
      · intro x hx
        rcases hsolT x hx with hold | hmem
        · rcases h.1 x hold with ⟨p, hp, hxp⟩
          exact ⟨p, hexp ▸ List.mem_append_left _ hp, hxp⟩
        · exact ⟨cur.state, hexp ▸ List.mem_append_right _ (List.mem_singleton.mpr rfl), hmem⟩
      · intro x hx
        rcases hsolS x hx with hold | ⟨_, hmem⟩
        · rcases h.2 x hold with ⟨p, hp, hxp⟩
          exact ⟨p, hexp ▸ List.mem_append_left _ hp, hxp⟩
        · exact ⟨cur.state, hexp ▸ List.mem_append_right _ (List.mem_singleton.mpr rfl), hmem⟩
    }

lemma iterLoop_trace {next : Nat → List Nat} {isSol : Nat → Bool} {dfs : Bool}
    {maxDepth nSols : Option Nat} :
    ∀ {fuel : Nat} {st st' : IterSt},
      iterLoop next isSol dfs maxDepth nSols fuel st = some st' →
      IterTrace next st → IterTrace next st' := by
  intro fuel
  induction fuel with
  | zero => intro st st' h; cases h
  | succ fuel ih =>
    intro st st' h hst
    rcases hb : st.backlog with _ | ⟨cur, rest⟩ <;> simp only [iterLoop, hb] at h
    · cases h; exact hst
    · have hst0 : IterTrace next { st with backlog := rest } := ⟨hst.1, hst.2⟩
      have hbody := @iterBody_trace next isSol dfs maxDepth nSols cur _ hst0
      rcases hB : iterBody next isSol dfs maxDepth nSols cur { st with backlog := rest }
          with stE | st2 <;> rw [hB] at hbody <;> simp only [hB] at h
      · rw [stOf_inl] at hbody
        cases h
        exact hbody
      · rw [stOf_inr] at hbody
        exact ih h ⟨hbody.1, hbody.2⟩

/-- Trace invariant of `parallelized_search`: the solution predicate has
only been invoked on states produced as successors by some performed
expansion, every recorded solution was produced that way, all initial
states stay footprinted, and no initial state is ever recorded as a
solution. -/
def ParTrace (next : Nat → List Nat) (inits : List Nat) (st : ParSt) : Prop :=
  (∀ x ∈ st.solTrace, ∃ p ∈ st.expTrace, x ∈ next p) ∧
    (∀ x ∈ st.solutions, ∃ p ∈ st.expTrace, x ∈ next p) ∧
    (∀ i ∈ inits, i ∈ st.footprints) ∧
    (∀ x ∈ st.solutions, x ∉ inits)

lemma parLoop_trace {next : Nat → List Nat} {isSol : Nat → Bool} {inits : List Nat} :
    ∀ {fuel : Nat} {st st' : ParSt},
      parLoop next isSol fuel st = some st' →
      ParTrace next inits st → ParTrace next inits st' := by
  intro fuel
  induction fuel with
  | zero => intro st st' h; cases h
  | succ fuel ih =>
    intro st st' h hst
    rcases hb : st.backlog with _ | ⟨cur, rest⟩ <;> simp only [parLoop, hb] at h
    · cases h; exact hst
    · rcases hst with ⟨ht1, ht2, ht3, ht4⟩
      refine ih h ?_
      set st1 : ParSt :=
        { st with backlog := rest, expTrace := st.expTrace ++ [cur.state] } with hst1
      set l : List (Node Nat) := (next cur.state).map (Node.mk (cur.depth + 1)) with hl
      have hexp : (classifyAll isSol l st1).expTrace = st.expTrace ++ [cur.state] :=
        classifyAll_expTrace isSol l st1
      have hlstate : ∀ r ∈ l, r.state ∈ next cur.state := by
        intro r hr
        rcases List.mem_map.mp hr with ⟨u, hu, rfl⟩
        exact hu
      refine ⟨?_, ?_, ?_, ?_⟩
      · intro x hx
        rcases classifyAll_solTrace_new isSol l st1 x hx with hold | ⟨r, hr, rfl⟩
        · rcases ht1 x hold with ⟨p, hp, hxp⟩
          exact ⟨p, hexp ▸ List.mem_append_left _ hp, hxp⟩
        · exact ⟨cur.state, hexp ▸ List.mem_append_right _ (List.mem_singleton.mpr rfl),
            hlstate r hr⟩
      · intro x hx
        rcases classifyAll_solutions_new isSol l st1 x hx with hold | ⟨_, _, r, hr, rfl⟩
        · rcases ht2 x hold with ⟨p, hp, hxp⟩
          exact ⟨p, hexp ▸ List.mem_append_left _ hp, hxp⟩
        · exact ⟨cur.state, hexp ▸ List.mem_append_right _ (List.mem_singleton.mpr rfl),
            hlstate r hr⟩
      · intro i hi
        exact classifyAll_footprints_mono isSol l st1 i (ht3 i hi)
      · intro x hx
        rcases classifyAll_solutions_new isSol l st1 x hx with hold | ⟨_, hnfp, _, _, rfl⟩
        · exact ht4 x hold
        · intro hmem
          exact hnfp (ht3 _ hmem)

/-- C9: neither `iterative_search` nor `parallelized_search` ever tests a
seeded initial node with the solution predicate: in both strategies every
state on which `is_solution` is invoked — and in particular every state in
the returned solution set — is a successor produced by the expansion of
some expanded state; and in the parallel strategy an initial state never
appears in the returned set at all, because it is footprinted at seeding
and therefore discarded even when rediscovered as a successor. -/
theorem c9_solution_predicate_only_on_successors (next : Nat → List Nat)
    (isSol : Nat → Bool) (states : List Nat) (dfs : Bool)
    (maxDepth nSols : Option Nat) (m fuelI fuelP : Nat) (stI : IterSt) (stP : ParSt)
    (hI : iterative_search next isSol states dfs maxDepth nSols fuelI = some stI)
    (hP : parallelized_search next isSol states m fuelP = some stP) :
    (∀ x ∈ stI.solTrace, ∃ p ∈ stI.expTrace, x ∈ next p) ∧
      (∀ x ∈ stI.solutions, ∃ p ∈ stI.expTrace, x ∈ next p) ∧
      (∀ x ∈ stP.solTrace, ∃ p ∈ stP.expTrace, x ∈ next p) ∧
      (∀ x ∈ stP.solutions, ∃ p ∈ stP.expTrace, x ∈ next p) ∧
      (∀ i ∈ states, i ∉ stP.solutions) := by
  have hiter : IterTrace next stI :=
    iterLoop_trace hI ⟨fun x hx => absurd hx (List.not_mem_nil x),
      fun x hx => absurd hx (Finset.not_mem_empty x)⟩
  have hpar : ParTrace next states stP := by
    refine parLoop_trace hP ⟨?_, ?_, ?_, ?_⟩
    · intro x hx; cases hx
    · intro x hx; cases hx
    · intro i hi; simpa using List.mem_toFinset.mpr hi
    · intro x hx; cases hx
  exact ⟨hiter.1, hiter.2, hpar.1, hpar.2.1, fun i hi hmem => hpar.2.2.2 i hmem hi⟩

/-- Witness for `c9_solution_predicate_only_on_successors` at the graph
`0 ↦ [1]` with solution `1` and initial state `0`. -/
theorem c9_solution_predicate_only_on_successors_witness :
    (∀ x ∈ [1], ∃ p ∈ [0], x ∈ (fun s => if s = 0 then [1] else []) p) ∧
      (∀ x ∈ (insert 1 ∅ : Finset Nat), ∃ p ∈ [0],
        x ∈ (fun s => if s = 0 then [1] else []) p) ∧
      (∀ x ∈ [1], ∃ p ∈ [0], x ∈ (fun s => if s = 0 then [1] else []) p) ∧
      (∀ x ∈ (insert 1 ∅ : Finset Nat), ∃ p ∈ [0],
        x ∈ (fun s => if s = 0 then [1] else []) p) ∧
      (∀ i ∈ [0], i ∉ (insert 1 ∅ : Finset Nat)) :=
  c9_solution_predicate_only_on_successors (fun s => if s = 0 then [1] else [])
    (fun s => decide (s = 1)) [0] true none none 1 5 5
    ⟨[], insert 0 ∅, insert 1 ∅, [0], [1]⟩
    ⟨[], insert 0 ∅, insert 1 ∅, [0], [1]⟩ rfl rfl

lemma seedChecked_error : ∀ (xs : List (Option Nat)), none ∈ xs →
    seedChecked xs = Except.error () := by
  intro xs
  induction xs with
  | nil => intro h; cases h
  | cons x rest ih =>
    intro h
    rcases x with _ | s
    · rfl
    · rcases List.mem_cons.mp h with h' | h'
      · cases h'
      · simp only [seedChecked, ih h']
        rfl

/-- C6 (amended): of the three entry points, only `iterative_search`
validates its initial values: if any supplied value is not a valid
`Backtrackable`, the seeding assertion aborts the call with a validation
failure before the search loop runs, so no expansion and no solution test
ever happens.  `parallelized_search` performs no such validation
(`c6_parallel_no_validation`: the search starts and the call hangs), and
`recursive_search` has no validation either — it simply invokes the
state's methods. -/
theorem c6_only_iterative_validates (next : Nat → List Nat) (isSol : Nat → Bool)
    (states : List (Option Nat)) (dfs : Bool) (maxDepth nSols : Option Nat)
    (fuel : Nat) (h : none ∈ states) :
    iterative_search_checked next isSol states dfs maxDepth nSols fuel =
      Except.error () := by
  unfold iterative_search_checked
  rw [seedChecked_error states h]
  rfl

/-- Witness for `c6_only_iterative_validates`: a list containing one valid
and one invalid value is rejected before the search starts. -/
theorem c6_only_iterative_validates_witness :
    iterative_search_checked (fun _ => []) (fun _ => false) [some 0, none]
      true none none 5 = Except.error () :=
  c6_only_iterative_validates (fun _ => []) (fun _ => false) [some 0, none]
    true none none 5 (by decide)

/-- A footprint set that is closed under expansion (solutions recorded,
non-solutions footprinted) contains, in its solution companion, every
solution reachable from it in at least one step — provided solutions have
no successors, so that no path passes through a solution. -/
lemma fpClosed_reach {next : Nat → List Nat} {isSol : Nat → Bool}
    {fp sols : Finset Nat}
    (hcl : ∀ f ∈ fp, ∀ u ∈ next f,
      (isSol u = true → u ∈ sols) ∧ (isSol u = false → u ∈ fp))
    (hchild : ∀ s, isSol s = true → next s = []) :
    ∀ {k s x : Nat}, ReachK next k s x → s ∈ fp → 1 ≤ k → isSol x = true →
      x ∈ sols := by
  intro k s x h
  induction h with
  | refl s => intro _ hk _; omega
  | @step s t u k ht hrest ih =>
    intro hs _ hu
    cases hrest with
    | refl => exact (hcl s hs _ ht).1 hu
    | @step _ t2 _ k2 ht2 h2 =>
      have htf : isSol t = false := by
        rcases hts : isSol t with _ | _
        · rfl
        · rw [hchild t hts] at ht2
          cases ht2
      have htfp : t ∈ fp := (hcl s hs t ht).2 htf
      exact ih htfp (by omega) hu

lemma iterLoop_backlog_nil {next : Nat → List Nat} {isSol : Nat → Bool} {dfs : Bool}
    {maxDepth : Option Nat} :
    ∀ {fuel : Nat} {st st' : IterSt},
      iterLoop next isSol dfs maxDepth none fuel st = some st' → st'.backlog = [] := by
  intro fuel
  induction fuel with
  | zero => intro st st' h; cases h
  | succ fuel ih =>
    intro st st' h
    rcases hb : st.backlog with _ | ⟨cur, rest⟩ <;>
      simp only [iterLoop, iterBody, hb] at h
    · cases h; exact hb
    · by_cases hdeep : tooDeep maxDepth cur.depth = true
      · rw [if_pos hdeep] at h
        exact ih h
      · rw [if_neg hdeep] at h
        obtain ⟨stM, hM⟩ := procSuccs_none_inr isSol dfs cur.depth (next cur.state)
          { st with backlog := rest, expTrace := st.expTrace ++ [cur.state] }
        rw [hM] at h
        exact ih h

/-- Closure invariant of `iterative_search` without ceilings: every
footprinted (i.e. expanded) state has all its successors classified —
solutions recorded, non-solutions footprinted or still pending — and every
initial state is footprinted or still pending. -/
def IterClosed (next : Nat → List Nat) (isSol : Nat → Bool) (inits : List Nat)
    (st : IterSt) : Prop :=
  (∀ f ∈ st.footprints, ∀ u ∈ next f,
      (isSol u = true → u ∈ st.solutions) ∧
      (isSol u = false → u ∈ st.footprints ∨ ∃ nd ∈ st.backlog, nd.state = u)) ∧
    (∀ i ∈ inits, i ∈ st.footprints ∨ ∃ nd ∈ st.backlog, nd.state = i)

lemma iterLoop_closed {next : Nat → List Nat} {isSol : Nat → Bool} {dfs : Bool}
    {inits : List Nat} :
    ∀ {fuel : Nat} {st st' : IterSt},
      iterLoop next isSol dfs none none fuel st = some st' →
      IterClosed next isSol inits st → IterClosed next isSol inits st' := by
  intro fuel
  induction fuel with
  | zero => intro st st' h; cases h
  | succ fuel ih =>
    intro st st' h hst
    rcases hb : st.backlog with _ | ⟨cur, rest⟩ <;>
      simp only [iterLoop, iterBody, tooDeep, Bool.false_eq_true, if_false, hb] at h
    · cases h; exact hst
    · obtain ⟨stM, hM⟩ := procSuccs_none_inr isSol dfs cur.depth (next cur.state)
        { st with backlog := rest, expTrace := st.expTrace ++ [cur.state] }
      rw [hM] at h
      refine ih h ?_
      rcases hst with ⟨hcl, hin⟩
      have hclass := procSuccs_inr_classified isSol dfs none cur.depth (next cur.state)
        _ stM hM
      have hfpM : stM.footprints = st.footprints := by
        have := procSuccs_footprints isSol dfs none cur.depth (next cur.state)
          { st with backlog := rest, expTrace := st.expTrace ++ [cur.state] }
        rw [hM, stOf_inr] at this
        exact this
      constructor
      · intro f hf u hu
        rcases Finset.mem_insert.mp hf with rfl | hf
        · refine ⟨fun hsol => (hclass u hu).1 hsol, fun hnsol => ?_⟩
          rcases (hclass u hu).2 hnsol with hfp' | ⟨nd, hnd, hnds⟩
          · have hufp : u ∈ st.footprints := hfp'
            exact Or.inl (Finset.mem_insert_of_mem (hfpM ▸ hufp))
          · exact Or.inr ⟨nd, hnd, hnds⟩
        · have hf' : f ∈ st.footprints := hfpM ▸ hf
          rcases hcl f hf' u hu with ⟨hc1, hc2⟩
          constructor
          · intro hsol
            have hu1 : u ∈ st.solutions := hc1 hsol
            have hu2 : u ∈ stM.solutions := procSuccs_inr_solutions_mono hM hu1
            exact hu2
          · intro hnsol
            rcases hc2 hnsol with hfp' | ⟨nd, hnd, hnds⟩
            · exact Or.inl (Finset.mem_insert_of_mem (hfpM ▸ hfp'))
            · rw [hb] at hnd
              rcases List.mem_cons.mp hnd with rfl | hnd
              · exact Or.inl (hnds ▸ Finset.mem_insert_self _ _)
              · have hnd2 : nd ∈ stM.backlog := procSuccs_inr_backlog_mono hM hnd
                exact Or.inr ⟨nd, hnd2, hnds⟩
      · intro i hi
        rcases hin i hi with hfp' | ⟨nd, hnd, hnds⟩
        · exact Or.inl (Finset.mem_insert_of_mem (hfpM ▸ hfp'))
        · rw [hb] at hnd
          rcases List.mem_cons.mp hnd with rfl | hnd
          · exact Or.inl (hnds ▸ Finset.mem_insert_self _ _)
          · have hnd2 : nd ∈ stM.backlog := procSuccs_inr_backlog_mono hM hnd
            exact Or.inr ⟨nd, hnd2, hnds⟩

lemma iterative_none_char {next : Nat → List Nat} {isSol : Nat → Bool} {dfs : Bool}
    {states : List Nat} {fuel : Nat} {st' : IterSt}
    (hchild : ∀ s, isSol s = true → next s = [])
    (h : iterative_search next isSol states dfs none none fuel = some st') :
    ∀ x, x ∈ st'.solutions ↔
      (isSol x = true ∧ ∃ i ∈ states, ∃ k, 1 ≤ k ∧ ReachK next k i x) := by
  intro x
  constructor
  · intro hx
    rcases (iterative_search_sound h).2 x hx with ⟨hs, i, hi, k, hk, _, hr⟩
    exact ⟨hs, i, hi, k, hk, hr⟩
  · rintro ⟨hx, i, hi, k, hk, hr⟩
    have hcls : IterClosed next isSol states st' := by
      refine iterLoop_closed h ⟨?_, ?_⟩
      · intro f hf
        exact absurd hf (Finset.not_mem_empty f)
      · intro j hj
        refine Or.inr ⟨⟨0, j⟩, ?_, rfl⟩
        simp only [List.mem_reverse, List.mem_map]
        exact ⟨j, hj, rfl⟩
    have hnil := iterLoop_backlog_nil h
    have hclp : ∀ f ∈ st'.footprints, ∀ u ∈ next f,
        (isSol u = true → u ∈ st'.solutions) ∧
          (isSol u = false → u ∈ st'.footprints) := by
      intro f hf u hu
      rcases hcls.1 f hf u hu with ⟨a, b⟩
      refine ⟨a, fun hns => ?_⟩
      rcases b hns with hfp | ⟨nd, hnd, _⟩
      · exact hfp
      · rw [hnil] at hnd
        cases hnd
    have hifp : i ∈ st'.footprints := by
      rcases hcls.2 i hi with hfp | ⟨nd, hnd, _⟩
      · exact hfp
      · rw [hnil] at hnd
        cases hnd
    exact fpClosed_reach hclp hchild hr hifp hk hx

lemma classifyAll_fp_backlog (isSol : Nat → Bool) :
    ∀ (l : List (Node Nat)) (st : ParSt) (f : Nat),
    f ∈ (classifyAll isSol l st).footprints →
      f ∈ st.footprints ∨ ∃ nd ∈ (classifyAll isSol l st).backlog, nd.state = f := by
  intro l
  induction l with
  | nil => intro st f h; exact Or.inl h
  | cons r rest ih =>
    intro st f h
    by_cases hfp : r.state ∈ st.footprints
    · simp only [classifyAll, if_pos hfp] at h ⊢
      exact ih _ _ h
    · by_cases hsol : isSol r.state = true
      · simp only [classifyAll, if_neg hfp, if_pos hsol] at h ⊢
        exact ih _ _ h
      · simp only [classifyAll, if_neg hfp, if_neg hsol] at h ⊢
        rcases ih _ _ h with h' | h'
        · rcases Finset.mem_insert.mp h' with rfl | h'
          · refine Or.inr ⟨⟨r.depth, r.state⟩, ?_, rfl⟩
            refine classifyAll_backlog_mono isSol _ _ _ ?_
            show (⟨r.depth, r.state⟩ : Node Nat) ∈ st.backlog ++ [r]
            refine List.mem_append_right _ ?_
            show (⟨r.depth, r.state⟩ : Node Nat) ∈ [r]
            rcases r with ⟨d, s⟩
            exact List.mem_singleton.mpr rfl
          · exact Or.inl h'
        · exact Or.inr h'

lemma parLoop_backlog_nil {next : Nat → List Nat} {isSol : Nat → Bool} :
    ∀ {fuel : Nat} {st st' : ParSt},
      parLoop next isSol fuel st = some st' → st'.backlog = [] := by
  intro fuel
  induction fuel with
  | zero => intro st st' h; cases h
  | succ fuel ih =>
    intro st st' h
    rcases hb : st.backlog with _ | ⟨cur, rest⟩ <;> simp only [parLoop, hb] at h
    · cases h; exact hb
    · exact ih h

/-- Closure invariant of the parallel coordinator: backlog nodes and
solutions carry reachability witnesses, every footprinted state is either
still pending or has all its successors classified, all initial states are
footprinted, and footprinted states are non-solutions unless initial. -/
def ParClosed (next : Nat → List Nat) (isSol : Nat → Bool) (inits : List Nat)
    (st : ParSt) : Prop :=
  (∀ nd ∈ st.backlog, ∃ i ∈ inits, ReachK next nd.depth i nd.state) ∧
    (∀ x ∈ st.solutions, isSol x = true ∧ ∃ i ∈ inits, ∃ k, 1 ≤ k ∧ ReachK next k i x) ∧
    (∀ f ∈ st.footprints, (∃ nd ∈ st.backlog, nd.state = f) ∨
      (∀ u ∈ next f, u ∈ st.footprints ∨ u ∈ st.solutions)) ∧
    (∀ i ∈ inits, i ∈ st.footprints) ∧
    (∀ f ∈ st.footprints, isSol f = false ∨ f ∈ inits)

lemma parLoop_closed {next : Nat → List Nat} {isSol : Nat → Bool} {inits : List Nat} :
    ∀ {fuel : Nat} {st st' : ParSt},
      parLoop next isSol fuel st = some st' →
      ParClosed next isSol inits st → ParClosed next isSol inits st' := by
  intro fuel
  induction fuel with
  | zero => intro st st' h; cases h
  | succ fuel ih =>
    intro st st' h hst
    rcases hb : st.backlog with _ | ⟨cur, rest⟩ <;> simp only [parLoop, hb] at h
    · cases h; exact hst
    · rcases hst with ⟨h1, h2, h3, h4, h5⟩
      have hcur : ∃ i ∈ inits, ReachK next cur.depth i cur.state :=
        h1 cur (hb ▸ List.mem_cons_self _ _)
      refine ih h ?_
      set st1 : ParSt :=
        { st with backlog := rest, expTrace := st.expTrace ++ [cur.state] } with hst1
      set l : List (Node Nat) := (next cur.state).map (Node.mk (cur.depth + 1)) with hl
      have hlmem : ∀ nd ∈ l, nd.depth = cur.depth + 1 ∧ nd.state ∈ next cur.state := by
        intro nd hnd
        rcases List.mem_map.mp hnd with ⟨u, hu, rfl⟩
        exact ⟨rfl, hu⟩
      have hrest : ∀ nd ∈ rest, ∃ i ∈ inits, ReachK next nd.depth i nd.state :=
        fun nd hnd => h1 nd (hb ▸ List.mem_cons_of_mem _ hnd)
      refine ⟨?_, ?_, ?_, ?_, ?_⟩
      · intro nd hnd
        rcases classifyAll_backlog_new isSol l st1 nd hnd with hold | ⟨hmem, _, _⟩
        · exact hrest nd hold
        · rcases hcur with ⟨i, hi, hreach⟩
          rcases hlmem nd hmem with ⟨hdep, hsucc⟩
          exact ⟨i, hi, hdep ▸ hreach.snoc hsucc⟩
      · intro x hx
        rcases classifyAll_solutions_new isSol l st1 x hx with hold | ⟨hsol, _, r, hr, rfl⟩
        · exact h2 x hold
        · rcases hcur with ⟨i, hi, hreach⟩
          rcases hlmem r hr with ⟨_, hsucc⟩
          exact ⟨hsol, i, hi, cur.depth + 1, Nat.succ_le_succ (Nat.zero_le _),
            hreach.snoc hsucc⟩
      · intro f hf
        rcases classifyAll_fp_backlog isSol l st1 f hf with hold | hnew
        · have hold' : f ∈ st.footprints := hold
          rcases h3 f hold' with ⟨nd, hnd, hnds⟩ | hclosed
          · rw [hb] at hnd
            rcases List.mem_cons.mp hnd with heq | hnd
            · have hcurf : cur.state = f := heq ▸ hnds
              refine Or.inr ?_
              intro u hu
              rw [← hcurf] at hu
              have hcl := classifyAll_classified isSol l st1 ⟨cur.depth + 1, u⟩
                (List.mem_map.mpr ⟨u, hu, rfl⟩)
              exact hcl
            · exact Or.inl ⟨nd, classifyAll_backlog_mono isSol l st1 nd hnd, hnds⟩
          · refine Or.inr ?_
            intro u hu
            rcases hclosed u hu with hufp | husol
            · exact Or.inl (classifyAll_footprints_mono isSol l st1 u hufp)
            · exact Or.inr (classifyAll_solutions_mono isSol l st1 u husol)
        · exact Or.inl hnew
      · intro i hi
        exact classifyAll_footprints_mono isSol l st1 i (h4 i hi)
      · intro f hf
        rcases classifyAll_footprints_new isSol l st1 f hf with hold | ⟨hns, _⟩
        · exact h5 f hold
        · exact Or.inl hns

lemma parallelized_char {next : Nat → List Nat} {isSol : Nat → Bool}
    {states : List Nat} {m fuel : Nat} {st' : ParSt}
    (hinit : ∀ i ∈ states, isSol i = false)
    (hchild : ∀ s, isSol s = true → next s = [])
    (h : parallelized_search next isSol states m fuel = some st') :
    ∀ x, x ∈ st'.solutions ↔
      (isSol x = true ∧ ∃ i ∈ states, ∃ k, 1 ≤ k ∧ ReachK next k i x) := by
  have hcls : ParClosed next isSol states st' := by
    refine parLoop_closed h ⟨?_, ?_, ?_, ?_, ?_⟩
    · intro nd hnd
      rcases List.mem_map.mp hnd with ⟨s, hs, rfl⟩
      exact ⟨s, hs, ReachK.refl s⟩
    · intro x hx
      exact absurd hx (Finset.not_mem_empty x)
    · intro f hf
      refine Or.inl ⟨⟨0, f⟩, ?_, rfl⟩
      exact List.mem_map.mpr ⟨f, List.mem_toFinset.mp hf, rfl⟩
    · intro i hi
      exact List.mem_toFinset.mpr hi
    · intro f hf
      exact Or.inr (List.mem_toFinset.mp hf)
  have hnil := parLoop_backlog_nil h
  rcases hcls with ⟨_, h2, h3, h4, h5⟩
  intro x
  constructor
  · intro hx
    exact h2 x hx
  · rintro ⟨hx, i, hi, k, hk, hr⟩
    have hclp : ∀ f ∈ st'.footprints, ∀ u ∈ next f,
        (isSol u = true → u ∈ st'.solutions) ∧
          (isSol u = false → u ∈ st'.footprints) := by
      intro f hf u hu
      have hclosure : u ∈ st'.footprints ∨ u ∈ st'.solutions := by
        rcases h3 f hf with ⟨nd, hnd, _⟩ | hc
        · rw [hnil] at hnd
          cases hnd
        · exact hc u hu
      constructor
      · intro hus
        rcases hclosure with hufp | husol
        · rcases h5 u hufp with hns | hin
          · rw [hus] at hns
            cases hns
          · rw [hinit u hin] at hus
            cases hus
        · exact husol
      · intro hns
        rcases hclosure with hufp | husol
        · exact hufp
        · rw [(h2 u husol).1] at hns
          cases hns
    exact fpClosed_reach hclp hchild hr (h4 i hi) hk hx

lemma rec_char {next : Nat → List Nat} {isSol : Nat → Bool} (rank : Nat → Nat)
    (hrank : ∀ s t, t ∈ next s → rank t < rank s)
    (hchild : ∀ s, isSol s = true → next s = []) :
    ∀ (fuel : Nat) (s : Nat), rank s < fuel →
      ∀ x, x ∈ recursive_search next isSol fuel s ↔
        ((isSol s = true ∧ x = s) ∨
          (isSol s = false ∧ isSol x = true ∧ ∃ k, 1 ≤ k ∧ ReachK next k s x)) := by
  intro fuel
  induction fuel with
  | zero => intro s h; omega
  | succ fuel ih =>
    intro s hs x
    simp only [recursive_search]
    by_cases hsol : isSol s = true
    · rw [if_pos hsol]
      simp only [Finset.mem_singleton]
      constructor
      · rintro rfl
        exact Or.inl ⟨hsol, rfl⟩
      · rintro (⟨_, rfl⟩ | ⟨h1, _⟩)
        · rfl
        · rw [hsol] at h1
          cases h1
    · have hsolf : isSol s = false := by simpa using hsol
      rw [if_neg hsol]
      rw [mem_foldl_union]
      simp only [Finset.not_mem_empty, false_or]
      constructor
      · rintro ⟨t, ht, hx⟩
        have hrt : rank t < fuel := by
          have h1 := hrank s t ht
          omega
        rcases (ih t hrt x).mp hx with ⟨h1, rfl⟩ | ⟨h1, h2, k, hk, hreach⟩
        · exact Or.inr ⟨hsolf, h1, 1, le_refl 1, ReachK.step ht (ReachK.refl x)⟩
        · exact Or.inr ⟨hsolf, h2, k + 1, by omega, ReachK.step ht hreach⟩
      · rintro (⟨h1, rfl⟩ | ⟨h1, h2, k, hk, hreach⟩)
        · rw [hsolf] at h1
          cases h1
        · cases hreach with
          | refl => omega
          | @step _ t _ m ht hrest =>
            refine ⟨t, ht, ?_⟩
            have hrt : rank t < fuel := by
              have h3 := hrank s t ht
              omega
            refine (ih t hrt x).mpr ?_
            by_cases hts : isSol t = true
            · cases hrest with
              | refl => exact Or.inl ⟨hts, rfl⟩
              | step ht2 h3 =>
                rw [hchild t hts] at ht2
                cases ht2
            · have htsf : isSol t = false := by simpa using hts
              refine Or.inr ⟨htsf, h2, m, ?_, hrest⟩
              cases hrest with
              | refl =>
                rw [htsf] at h2
                cases h2
              | step ht2 h3 => omega

/-- C1 (amended): on a finite, cycle-free state graph (witnessed by a rank
function that strictly decreases along expansion edges) in which no initial
state is itself a solution and no solution state has successors, every
terminating run of the recursive, iterative (DFS or BFS, no ceilings), and
parallel strategies returns the same solution set — the set of solution
states reachable from the initial states in at least one step.  Both extra
conditions are forced by the code: an initial solution state is returned
only by the recursive strategy (`c1_initial_solution_counterexample`), and
a solution with successors can be expanded by the iterative strategy when
rediscovered (so its descendants are found by no other strategy). -/
theorem c1_strategy_agreement (next : Nat → List Nat) (isSol : Nat → Bool)
    (states : List Nat) (dfs : Bool) (m : Nat) (rank : Nat → Nat)
    (fuelI fuelP fuelR : Nat) (SI SP : Finset Nat)
    (hrank : ∀ s t, t ∈ next s → rank t < rank s)
    (hinit : ∀ i ∈ states, isSol i = false)
    (hchild : ∀ s, isSol s = true → next s = [])
    (hfuelR : ∀ i ∈ states, rank i < fuelR)
    (hI : (iterative_search next isSol states dfs none none fuelI).map
        IterSt.solutions = some SI)
    (hP : (parallelized_search next isSol states m fuelP).map
        ParSt.solutions = some SP) :
    SI = SP ∧ SI = recursive_search_all next isSol states fuelR := by
  rcases hrunI : iterative_search next isSol states dfs none none fuelI with _ | stI
  · rw [hrunI] at hI
    cases hI
  rcases hrunP : parallelized_search next isSol states m fuelP with _ | stP
  · rw [hrunP] at hP
    cases hP
  rw [hrunI, show (some stI).map IterSt.solutions = some stI.solutions from rfl] at hI
  rw [hrunP, show (some stP).map ParSt.solutions = some stP.solutions from rfl] at hP
  cases hI
  cases hP
  have hIc := iterative_none_char hchild hrunI
  have hPc := parallelized_char hinit hchild hrunP
  have hRc : ∀ x, x ∈ recursive_search_all next isSol states fuelR ↔
      (isSol x = true ∧ ∃ i ∈ states, ∃ k, 1 ≤ k ∧ ReachK next k i x) := by
    intro x
    unfold recursive_search_all
    rw [mem_foldl_union]
    simp only [Finset.not_mem_empty, false_or]
    constructor
    · rintro ⟨i, hi, hx⟩
      rcases (rec_char rank hrank hchild fuelR i (hfuelR i hi) x).mp hx with
        ⟨h1, _⟩ | ⟨_, h2, k, hk, hr⟩
      · rw [hinit i hi] at h1
        cases h1
      · exact ⟨h2, i, hi, k, hk, hr⟩
    · rintro ⟨hx, i, hi, k, hk, hr⟩
      exact ⟨i, hi, (rec_char rank hrank hchild fuelR i (hfuelR i hi) x).mpr
        (Or.inr ⟨hinit i hi, hx, k, hk, hr⟩)⟩
  constructor
  · ext x
    rw [hIc x, ← hPc x]
  · ext x
    rw [hIc x, ← hRc x]

/-- Witness for `c1_strategy_agreement` at the graph `0 ↦ [1, 2]`,
`1 ↦ [3]` with childless solutions `2` and `3` and non-solution initial
state `0`: all three strategies return `{2, 3}`. -/
theorem c1_strategy_agreement_witness :
    (insert 3 (insert 2 ∅) : Finset Nat) = insert 3 (insert 2 ∅) ∧
      (insert 3 (insert 2 ∅) : Finset Nat) =
        recursive_search_all
          (fun s => if s = 0 then [1, 2] else if s = 1 then [3] else [])
          (fun s => decide (s = 2) || decide (s = 3)) [0] 10 :=
  c1_strategy_agreement
    (fun s => if s = 0 then [1, 2] else if s = 1 then [3] else [])
    (fun s => decide (s = 2) || decide (s = 3)) [0] true 1 (fun s => 3 - s)
    10 10 10 (insert 3 (insert 2 ∅)) (insert 3 (insert 2 ∅))
    (by
      intro s t ht
      by_cases h0 : s = 0
      · subst h0
        simp at ht
        rcases ht with rfl | rfl <;> decide
      · by_cases h1 : s = 1
        · subst h1
          simp at ht
          subst ht
          decide
        · simp only [if_neg h0, if_neg h1] at ht
          cases ht)
    (by decide)
    (by
      intro s hs
      simp only [Bool.or_eq_true, decide_eq_true_eq] at hs
      rcases hs with rfl | rfl <;> rfl)
    (by decide) rfl rfl
